import Mathlib

/-!
# Dense matrix and vector primitives (ilyaivensky/ML)

A shallow embedding of `src/ML/matrix.h`, `src/LA/matrix_impl.h` and
`src/LA/vector_utils.h`.

* `vector<T>` is `List K`; `vector<vector<T> >` is `List (List K)`.
* The element type `T` is a field `K` with decidable equality (exact
  arithmetic); ordered operations (`sort`, `max`, `min`, `<=`) take a linear
  ordered field. The definitions themselves only ask for the operations they
  use, so they also run on `Double`, the finite values of IEEE 754 binary64
  with every operation rounded to nearest, ties to even.
* `for (unsigned i = 0; i < n; ++i) body` is `loop n body`; a loop whose body
  may `throw` is `loopM n body`.
* `throw exception("...")` is `Except.error` of the constructor of `Exception`
  that stands for the message.
* An in-place operator that may throw (`+=`, `-=`) returns the state of its receiver
  after the call together with the exception thrown, if any.
* `operator[]` reads are total here (`getD`, default `0`), writes past the end
  leave the grid as it is; the theorems are stated for well-formed matrices, on
  which the source never indexes out of bounds.
-/

/-- Square Mathlib matrix indexed by `Fin n`, the mathematical counterpart of a grid. -/
abbrev SqMat (n : ℕ) (K : Type) : Type := Matrix (Fin n) (Fin n) K

/-- The messages the source passes to `exception(...)`, one constructor per message. -/
inductive Exception where
  /-- "cannot inverse non-square matrix\n" (`ML/matrix.h`, `invert`). -/
  | nonSquare
  /-- "matrix cannot be inverted\n" (`ML/matrix.h`, `invert`). -/
  | cannotInvert
  /-- "not compatible for operator +=" (`ML/matrix.h`, `operator+=`). -/
  | notCompatiblePlus
  /-- "not compatible for operator '+='" (`LA/matrix_impl.h`, `operator +=`). -/
  | notCompatiblePlusLA
  /-- "not compatible for operator '-='" (`LA/matrix_impl.h`). -/
  | notCompatibleMinus
  /-- "inner_product: v1.size() != v2.size()" (`LA/vector_utils.h`). -/
  | innerProductSize
  /-- "outer_product: v1.size() != v2.size()" (`LA/matrix_impl.h`). -/
  | outerProductSize
  /-- "dist: v1.size() != v2.size()" (`LA/vector_utils.h`). -/
  | distSize
  /-- "norm of vector is not defined for p < 1" (`LA/vector_utils.h`). -/
  | normUndefined
  /-- "upper bound is not greater than lower bound" (`LA/matrix_impl.h`, `scale`). -/
  | boundsOrder
  /-- "Incompatible vectors" (`LA/matrix_impl.h`, `vector ^ vector`). -/
  | incompatibleVectors
  /-- "Incompatible sizes" (`LA/matrix_impl.h`, `matrix ^ vector`, `vector ^ matrix`). -/
  | incompatibleSizes
  deriving DecidableEq, Repr

/-- The error taxonomy of the specification (section 7). -/
inductive ErrorKind where
  | DimensionMismatch
  | NotSquare
  | SingularMatrix
  | InvalidArgument
  deriving DecidableEq, Repr

/-- The kind of the specification's taxonomy that each thrown message belongs to. -/
def Exception.kind : Exception → ErrorKind
  | .nonSquare => .NotSquare
  | .cannotInvert => .SingularMatrix
  | .notCompatiblePlus => .DimensionMismatch
  | .notCompatiblePlusLA => .DimensionMismatch
  | .notCompatibleMinus => .DimensionMismatch
  | .innerProductSize => .DimensionMismatch
  | .outerProductSize => .DimensionMismatch
  | .distSize => .DimensionMismatch
  | .normUndefined => .InvalidArgument
  | .boundsOrder => .InvalidArgument
  | .incompatibleVectors => .DimensionMismatch
  | .incompatibleSizes => .DimensionMismatch

/-- Counted loop `for (unsigned i = 0; i < n; ++i) s = body i s`. -/
def loop {σ : Type} : ℕ → (ℕ → σ → σ) → σ → σ
  | 0, _, s => s
  | n + 1, body, s => body n (loop n body s)

/-- Counted loop whose body may throw: the first exception ends the loop. -/
def loopM {σ ε : Type} : ℕ → (ℕ → σ → Except ε σ) → σ → Except ε σ
  | 0, _, s => .ok s
  | n + 1, body, s =>
    match loopM n body s with
    | .ok s' => body n s'
    | .error e => .error e

/-- Read `g[i][j]` of a `vector<vector<T> >`. -/
def gget {K : Type} [Zero K] (g : List (List K)) (i j : ℕ) : K :=
  (g.getD i []).getD j 0

/-- Write `g[i][j] = v` of a `vector<vector<T> >`. -/
def gset {K : Type} (g : List (List K)) (i j : ℕ) (v : K) : List (List K) :=
  g.set i ((g.getD i []).set j v)

/-- The grid has `n` rows, each of length `m`. -/
def Rect {K : Type} (n m : ℕ) (g : List (List K)) : Prop :=
  g.length = n ∧ ∀ r ∈ g, r.length = m

instance {K : Type} (n m : ℕ) (g : List (List K)) : Decidable (Rect n m g) :=
  inferInstanceAs (Decidable (g.length = n ∧ ∀ r ∈ g, r.length = m))

/-- The `vector<vector<T> >(row, vector<T>(col, 0.0))` base initialiser. -/
def zeros {K : Type} [Zero K] (row col : ℕ) : List (List K) :=
  List.replicate row (List.replicate col 0)

namespace ML

/-- `struct Matrix : public vector<vector<T> >` with the fields `row`, `col` (`ML/matrix.h`). -/
structure Matrix (K : Type) where
  data : List (List K)
  row : ℕ
  col : ℕ
  deriving DecidableEq, Repr

variable {K : Type}

/-- Constructor `Matrix(unsigned row, unsigned col)`. -/
def Matrix.new [Zero K] (row col : ℕ) : Matrix K := ⟨zeros row col, row, col⟩

/-- Constructor `Matrix(unsigned n)`. -/
def Matrix.newSquare [Zero K] (n : ℕ) : Matrix K := ⟨zeros n n, n, n⟩

/-- The cached counts agree with the grid: `row` rows, each of length `col`. -/
def Matrix.WF (M : Matrix K) : Prop := Rect M.row M.col M.data

instance (M : Matrix K) : Decidable M.WF :=
  inferInstanceAs (Decidable (Rect M.row M.col M.data))

/-- Method `is_square`. -/
def Matrix.is_square (M : Matrix K) : Bool := M.row == M.col

/-- Static `Matrix<T>::diag(unsigned n, T lambda)`. -/
def Matrix.diag [Zero K] (n : ℕ) (lambda : K) : Matrix K :=
  let r : Matrix K := Matrix.newSquare n
  { r with data := loop n (fun i g => gset g i i lambda) r.data }

/-- Free `operator *(const Matrix<T> & m1, const Matrix<T> & m2)`. -/
def mul [Zero K] [Add K] [Mul K] (m1 m2 : Matrix K) : Matrix K :=
  let res : Matrix K := Matrix.new m1.row m2.col
  let d := loop m1.row (fun m g =>
    loop m2.col (fun n g =>
      let elem := loop m2.row (fun k elem => elem + gget m1.data m k * gget m2.data k n) 0
      gset g m n elem) g) res.data
  { res with data := d }

/-- Method `Matrix<T>::multiply_by_transposed(const Matrix<T> & other)`. -/
def Matrix.multiply_by_transposed [Zero K] [Add K] [Mul K] (self other : Matrix K) : Matrix K :=
  let res : Matrix K := Matrix.new self.row other.row
  let d := loop self.row (fun m g =>
    loop other.row (fun n g =>
      let elem := loop other.col (fun k elem => elem + gget self.data m k * gget other.data n k) 0
      gset g m n elem) g) res.data
  { res with data := d }

/-- The identity initialisation of `inverse` in `invert` (lines 112-115). -/
def initIdent [Zero K] [One K] (n : ℕ) (g : List (List K)) : List (List K) :=
  loop n (fun i g => loop n (fun j g => if i = j then gset g i j 1 else g) g) g

/-- The `k` loop of `invert` (lines 126-130): subtract `ratio` times row `i` from row `j`
in the working copy and in the accumulating inverse. -/
def elimRow [Zero K] [Sub K] [Mul K] (n i j : ℕ) (ratio : K)
    (s : List (List K) × List (List K)) : List (List K) × List (List K) :=
  loop n (fun k s =>
    (gset s.1 j k (gget s.1 j k - ratio * gget s.1 i k),
     gset s.2 j k (gget s.2 j k - ratio * gget s.2 i k))) s

/-- The body of the `j` loop of `invert` (lines 121-131). -/
def elimBody [Zero K] [Sub K] [Mul K] [Div K] [DecidableEq K] (n i j : ℕ)
    (s : List (List K) × List (List K)) : Except Exception (List (List K) × List (List K)) :=
  if i ≠ j then
    if gget s.1 i i = 0 then .error .cannotInvert
    else
      let ratio := gget s.1 j i / gget s.1 i i
      .ok (elimRow n i j ratio s)
  else .ok s

/-- The elimination loops of `invert` (lines 117-133). -/
def eliminate [Zero K] [Sub K] [Mul K] [Div K] [DecidableEq K] (n : ℕ)
    (s : List (List K) × List (List K)) : Except Exception (List (List K) × List (List K)) :=
  loopM n (fun i s => loopM n (fun j s => elimBody n i j s) s) s

/-- The body of the normalisation loop of `invert` (lines 137-144). -/
def normBody [Zero K] [Div K] [DecidableEq K] (n i : ℕ)
    (s : List (List K) × List (List K)) : Except Exception (List (List K) × List (List K)) :=
  let a := gget s.1 i i
  if a = 0 then .error .cannotInvert
  else
    .ok (loop n (fun j s =>
      (gset s.1 i j (gget s.1 i j / a), gset s.2 i j (gget s.2 i j / a))) s)

/-- The normalisation loop of `invert` (lines 135-145). -/
def normalise [Zero K] [Div K] [DecidableEq K] (n : ℕ)
    (s : List (List K) × List (List K)) : Except Exception (List (List K) × List (List K)) :=
  loopM n (fun i s => normBody n i s) s

/-- Method `Matrix<T>::invert()`. -/
def Matrix.invert [Zero K] [One K] [Sub K] [Mul K] [Div K] [DecidableEq K]
    (self : Matrix K) : Except Exception (Matrix K) :=
  if !self.is_square then .error .nonSquare
  else
    let matrix : Matrix K := self
    let n := matrix.data.length
    let inverse : Matrix K := Matrix.newSquare n
    let inverse : Matrix K := { inverse with data := initIdent n inverse.data }
    match eliminate n (matrix.data, inverse.data) with
    | .error e => .error e
    | .ok s =>
      match normalise n s with
      | .error e => .error e
      | .ok s => .ok { inverse with data := s.2 }

end ML

/-- The `n × n` grid read as a Mathlib matrix. -/
def toMat {K : Type} [Zero K] (n : ℕ) (g : List (List K)) : SqMat n K :=
  Matrix.of (fun a b => gget g a.val b.val)

/-- The singular matrix `[[1,2],[2,4]]` of the specification's scenario. -/
def ML.singular2 : ML.Matrix ℚ := ⟨[[1, 2], [2, 4]], 2, 2⟩

/-- A square matrix is singular when its determinant is zero. -/
def ML.Matrix.Singular {K : Type} [Field K] (A : ML.Matrix K) : Prop :=
  (toMat A.row A.data).det = 0

/-- The working copy is the accumulated inverse times the input: `matrix = inverse * A`. -/
def ML.Linked {K : Type} [Field K] (n : ℕ) (A : List (List K))
    (s : List (List K) × List (List K)) : Prop :=
  Rect n n s.1 ∧ Rect n n s.2 ∧ toMat n s.1 = toMat n s.2 * toMat n A

/-- Off-diagonal entries already eliminated: the columns before `i`, and in column `i`
the rows before `j`. -/
def ML.Cleared {K : Type} [Zero K] (n i j : ℕ) (g : List (List K)) : Prop :=
  ∀ a c, a < n → c < n → a ≠ c → (c < i ∨ (c = i ∧ a < j)) → gget g a c = 0

/-- Transpose of a matrix as the specification words it: entry `(k, n)` of the transpose
is entry `(n, k)` of the matrix, and the counts are swapped. The source has no transpose. -/
def ML.transpose {K : Type} [Zero K] (B : ML.Matrix K) : ML.Matrix K :=
  ⟨(List.range B.col).map (fun k => (List.range B.row).map (fun n => gget B.data n k)),
    B.col, B.row⟩

namespace LA

/-- Modelled from the spec: the class declaration of the second `Matrix` (`LA/matrix.h`) is
not among the sources. Following section 3 of the specification it is a grid of rows with
the cached counts `rowCount` and `colCount`. -/
structure Matrix (K : Type) where
  data : List (List K)
  row : ℕ
  col : ℕ
  deriving DecidableEq, Repr

variable {K : Type}

/-- Modelled from the spec: accessor `nrow()`, the cached `rowCount`. -/
def Matrix.nrow (M : Matrix K) : ℕ := M.row

/-- Modelled from the spec: accessor `ncol()`, the cached `colCount`. -/
def Matrix.ncol (M : Matrix K) : ℕ := M.col

/-- Modelled from the spec: constructor `Matrix(rowCount, colCount)`, the all-zero grid. -/
def Matrix.new [Zero K] (row col : ℕ) : Matrix K := ⟨zeros row col, row, col⟩

/-- The cached counts agree with the grid. -/
def Matrix.WF (M : Matrix K) : Prop := Rect M.row M.col M.data

instance (M : Matrix K) : Decidable M.WF :=
  inferInstanceAs (Decidable (Rect M.row M.col M.data))

/-- Method `Matrix<T>::multiply_by_transposed` of `LA/matrix_impl.h`. -/
def Matrix.multiply_by_transposed [Zero K] [Add K] [Mul K] (self other : Matrix K) : Matrix K :=
  let res : Matrix K := Matrix.new self.nrow other.nrow
  let d := loop self.nrow (fun m g =>
    loop other.nrow (fun n g =>
      let elem := loop other.ncol (fun k elem => elem + gget self.data m k * gget other.data n k) 0
      gset g m n elem) g) res.data
  { res with data := d }

/-- Member `Matrix<T>::operator * (const Matrix<T> & m2)` of `LA/matrix_impl.h`: `elem` is a
reference to `res[m][n]`, so every `+=` writes the result grid. -/
def Matrix.mul [Zero K] [Add K] [Mul K] (m1 m2 : Matrix K) : Matrix K :=
  let res : Matrix K := Matrix.new m1.nrow m2.ncol
  let d := loop m1.nrow (fun m g =>
    loop m2.ncol (fun n g =>
      loop m2.nrow (fun k g =>
        gset g m n (gget g m n + gget m1.data m k * gget m2.data k n)) g) g) res.data
  { res with data := d }

/-- Transpose as the specification words it, for the second `Matrix`. -/
def transpose [Zero K] (B : Matrix K) : Matrix K :=
  ⟨(List.range B.col).map (fun k => (List.range B.row).map (fun n => gget B.data n k)),
    B.col, B.row⟩

end LA

/-- Function `inner_product` of `LA/vector_utils.h`. -/
def inner_product {K : Type} [Zero K] [Add K] [Mul K] (v1 v2 : List K) : Except Exception K :=
  if v1.length ≠ v2.length then .error .innerProductSize
  else .ok (loop v1.length (fun i retval => retval + v1.getD i 0 * v2.getD i 0) 0)

/-- The scan of `std::unique`: `last` is the element kept most recently; an element equal
to it is dropped, any other element is kept and becomes the new `last`. -/
def uniqueFrom {K : Type} [DecidableEq K] (last : K) : List K → List K
  | [] => []
  | x :: t => if last = x then uniqueFrom last t else x :: uniqueFrom x t

/-- Call `unique(v.begin(), v.end())` followed by `v.erase(itEnd, v.end())`: the first
element of every run of equal elements is kept. -/
def unique {K : Type} [DecidableEq K] : List K → List K
  | [] => []
  | x :: t => x :: uniqueFrom x t

/-- Function `make_vector_set` of `LA/vector_utils.h`. The call `sort(v.begin(), v.end())`
is the ascending sorted rearrangement, here computed by insertion sort: on a linear order
every sorting algorithm returns the same list. -/
def make_vector_set {K : Type} [LinearOrder K] (v : List K) : List K :=
  unique (List.insertionSort (fun a b => a ≤ b) v)

/-- The inputs of the specification's mismatched-length scenario. -/
def vec12 : List ℚ := [1, 2]

/-- The longer operand of the mismatched-length scenario. -/
def vec123 : List ℚ := [1, 2, 3]

/-- Two matrices with two columns each, for `multiply_by_transposed`. -/
def ML.left23 : ML.Matrix ℚ := ⟨[[1, 2], [3, 4], [5, 6]], 3, 2⟩

/-- The right operand, one row of two columns. -/
def ML.right12 : ML.Matrix ℚ := ⟨[[7, 8]], 1, 2⟩

/-- Left operand for the second `Matrix`. -/
def LA.left23 : LA.Matrix ℚ := ⟨[[1, 2], [3, 4], [5, 6]], 3, 2⟩

/-- Right operand for the second `Matrix`. -/
def LA.right12 : LA.Matrix ℚ := ⟨[[7, 8]], 1, 2⟩

/-- The second operand of the commutativity example. -/
def vec34 : List ℚ := [3, 4]

/-- The two constants of `std::numeric_limits<T>` that `scale` reads. They belong to the
C++ standard library and depend on `T`, so they are a parameter of the model. -/
structure NumericLimits (K : Type) where
  /-- `numeric_limits<T>::min()`. -/
  min : K
  /-- `numeric_limits<T>::max()`. -/
  max : K

/-- `numeric_limits<double>`: `min()` is the smallest positive normalised value `2^-1022`,
`max()` is `(2^53 - 1) * 2^971`. -/
def doubleLimits : NumericLimits ℚ := ⟨1 / 2 ^ 1022, (2 ^ 53 - 1) * 2 ^ 971⟩

/-- The first pair of loops of `scale` (lines 51-60): the running maximum and minimum of
every column, seeded with `numeric_limits<T>::min()` and `numeric_limits<T>::max()`. The
source sizes the two vectors with `col_` and bounds its loops with `row` and `col`: all
of them are the cached counts. -/
def LA.Matrix.featureBounds {K : Type} [LinearOrderedField K] (lim : NumericLimits K)
    (self : LA.Matrix K) : List K × List K :=
  let feature_max := List.replicate self.col lim.min
  let feature_min := List.replicate self.col lim.max
  loop self.row (fun r f =>
    loop self.col (fun c f =>
      let row := self.data.getD r []
      (f.1.set c (max (row.getD c 0) (f.1.getD c 0)),
       f.2.set c (min (row.getD c 0) (f.2.getD c 0)))) f) (feature_max, feature_min)

/-- The body of the second pair of loops of `scale` (lines 67-74). -/
def LA.Matrix.scaleEntry {K : Type} [LinearOrderedField K] (feature_max feature_min : List K)
    (lb ub : K) (r c : ℕ) (g : List (List K)) : List (List K) :=
  if feature_max.getD c 0 = feature_min.getD c 0 then g
  else if gget g r c = feature_min.getD c 0 then gset g r c lb
  else if gget g r c = feature_max.getD c 0 then gset g r c ub
  else gset g r c
    (lb + (ub - lb) * (gget g r c - feature_min.getD c 0) /
      (feature_max.getD c 0 - feature_min.getD c 0))

/-- Method `Matrix<T>::scale(T lb, T ub)` of `LA/matrix_impl.h`; the `void` method returns
the mutated receiver here. The source binds each row as `const Row &` and assigns through
it; the assignment is taken to write the matrix. -/
def LA.Matrix.scale {K : Type} [LinearOrderedField K] (lim : NumericLimits K)
    (self : LA.Matrix K) (lb ub : K) : Except Exception (LA.Matrix K) :=
  if ub ≤ lb then .error .boundsOrder
  else
    let f := self.featureBounds lim
    let d := loop self.row (fun r g =>
      loop self.col (fun c g => LA.Matrix.scaleEntry f.1 f.2 lb ub r c g) g) self.data
    .ok { self with data := d }

/-- A 2 x 1 matrix whose only column is all negative: maximum `-1` in row 0, minimum `-2`
in row 1. -/
def LA.negColumn : LA.Matrix ℚ := ⟨[[-1], [-2]], 2, 1⟩

/-- The same column shifted to positive values. -/
def LA.posColumn : LA.Matrix ℚ := ⟨[[2], [1]], 2, 1⟩

/-- The value that `scale` leaves in an entry of column `c` that held `v`, given the
feature maximum `fmax` and minimum `fmin` found for the column (lines 67-74). -/
def LA.scaleValue {K : Type} [LinearOrderedField K] (fmax fmin lb ub v : K) : K :=
  if fmax = fmin then v
  else if v = fmin then lb
  else if v = fmax then ub
  else lb + (ub - lb) * (v - fmin) / (fmax - fmin)

/-- A 2 x 1 matrix whose only column is the negative constant `-5`. -/
def LA.constNegColumn : LA.Matrix ℚ := ⟨[[-5], [-5]], 2, 1⟩

/-- Method `Matrix<T>::xtx()` of `ML/matrix.h`. -/
def ML.Matrix.xtx {K : Type} [Zero K] [Add K] [Mul K] (self : ML.Matrix K) : ML.Matrix K :=
  let DIM := self.col
  let TRAINING_EXAMPLES := self.row
  let res : ML.Matrix K := ML.Matrix.newSquare DIM
  let d := loop DIM (fun n g =>
    loop DIM (fun q g =>
      let elem := loop TRAINING_EXAMPLES
        (fun m elem => elem + gget self.data m n * gget self.data m q) 0
      gset g n q elem) g) res.data
  { res with data := d }

/-- Method `Matrix<T>::transform` of `ML/matrix.h`; the function pointer `t` is a function
from rows to rows. -/
def ML.Matrix.transform {K : Type} [Zero K] (self : ML.Matrix K) (t : List K → List K) :
    ML.Matrix K :=
  let transformed : ML.Matrix K := ML.Matrix.new self.row 0
  let d := loop self.row (fun r g => g.set r (t (self.data.getD r []))) transformed.data
  { data := d, row := transformed.row, col := (d.getD 0 []).length }

/-- Free `operator+=(Matrix<T> & m1, const Matrix<T> & m2)` of `ML/matrix.h`. The result is
the state of `m1` after the call together with the exception thrown, if any. -/
def ML.plusAssign {K : Type} [Zero K] [Add K] (m1 m2 : ML.Matrix K) :
    ML.Matrix K × Option Exception :=
  if m1.row ≠ m2.row ∨ m1.col ≠ m2.col then (m1, some .notCompatiblePlus)
  else
    let d := loop m1.row (fun r g =>
      loop m1.col (fun c g => gset g r c (gget g r c + gget m2.data r c)) g) m1.data
    ({ m1 with data := d }, none)

/-- The inner iterator loop of the `operator +=` and `operator -=` of `LA/matrix_impl.h`:
`cit1` walks the whole row of `m1`, `cit2` walks the row of `m2` in step, and each element
of the first row is combined in place with the element under `cit2`. -/
def LA.walkRow {K : Type} [Zero K] (op : K → K → K) : List K → List K → List K
  | [], _ => []
  | x :: xs, ys => op x (ys.headD 0) :: LA.walkRow op xs ys.tail

/-- The outer iterator loop of the `operator +=` and `operator -=` of `LA/matrix_impl.h`:
`rit1` walks all rows of `m1`, `rit2` walks the rows of `m2` in step. -/
def LA.walkRows {K : Type} [Zero K] (op : K → K → K) :
    List (List K) → List (List K) → List (List K)
  | [], _ => []
  | r :: rs, qs => LA.walkRow op r (qs.headD []) :: LA.walkRows op rs qs.tail

/-- Member `Matrix<T>::operator += (const Matrix<T> & m2)` of `LA/matrix_impl.h`. The
result is the state of the receiver after the call and the exception thrown, if any. -/
def LA.Matrix.plusAssign {K : Type} [Zero K] [Add K] (m1 m2 : LA.Matrix K) :
    LA.Matrix K × Option Exception :=
  if m1.nrow ≠ m2.nrow ∨ m1.ncol ≠ m2.ncol then (m1, some .notCompatiblePlusLA)
  else ({ m1 with data := LA.walkRows (fun a b => a + b) m1.data m2.data }, none)

/-- Member `Matrix<T>::operator + (const Matrix<T> & m2) const` of `LA/matrix_impl.h`:
`Matrix<T> m(*this); return m += m2;`. Both operands are `const`; the copy `m` is the only
matrix written. -/
def LA.Matrix.plus {K : Type} [Zero K] [Add K] (self m2 : LA.Matrix K) :
    Except Exception (LA.Matrix K) :=
  let m : LA.Matrix K := self
  match m.plusAssign m2 with
  | (m', none) => .ok m'
  | (_, some e) => .error e

/-- Member `Matrix<T>::operator -= (const Matrix<T> & m2)` of `LA/matrix_impl.h`. -/
def LA.Matrix.minusAssign {K : Type} [Zero K] [Sub K] (m1 m2 : LA.Matrix K) :
    LA.Matrix K × Option Exception :=
  if m1.nrow ≠ m2.nrow ∨ m1.ncol ≠ m2.ncol then (m1, some .notCompatibleMinus)
  else ({ m1 with data := LA.walkRows (fun a b => a - b) m1.data m2.data }, none)

/-- Member `Matrix<T>::operator - (const Matrix<T> & m2) const` of `LA/matrix_impl.h`. -/
def LA.Matrix.minus {K : Type} [Zero K] [Sub K] (self m2 : LA.Matrix K) :
    Except Exception (LA.Matrix K) :=
  let m : LA.Matrix K := self
  match m.minusAssign m2 with
  | (m', none) => .ok m'
  | (_, some e) => .error e

/-- Modelled from the spec: constructor `Matrix(n)` of the second `Matrix`, the `n x n`
zero grid (section 4.2); its declaration is not among the sources. -/
def LA.Matrix.newSquare {K : Type} [Zero K] (n : ℕ) : LA.Matrix K := ⟨zeros n n, n, n⟩

/-- Static `Matrix<T>::diag(unsigned n, const T & val)` of `LA/matrix_impl.h`. -/
def LA.Matrix.diag {K : Type} [Zero K] (n : ℕ) (val : K) : LA.Matrix K :=
  let r : LA.Matrix K := LA.Matrix.newSquare n
  { r with data := loop n (fun i g => gset g i i val) r.data }

/-- Member `Matrix<T>::operator * (const vector<T> & v)` of `LA/matrix_impl.h`; the call of
`inner_product` may throw. -/
def LA.Matrix.mulVec {K : Type} [Zero K] [Add K] [Mul K] (self : LA.Matrix K) (v : List K) :
    Except Exception (LA.Matrix K) :=
  let res : LA.Matrix K := LA.Matrix.new self.nrow 1
  match loopM self.nrow (fun r g =>
      match inner_product (self.data.getD r []) v with
      | .ok x => .ok (gset g r 0 x)
      | .error e => .error e) res.data with
  | .ok d => .ok { res with data := d }
  | .error e => .error e

/-- Constructor `Matrix<T>::Matrix(const vector<T> & v1, const vector<T> & v2)` of
`LA/matrix_impl.h`. The member initialisers are `row(row), col(col)`: each count is
initialised from itself, so it keeps whatever its storage held; that indeterminate content
is the pair `row0`, `col0`. -/
def LA.Matrix.ofOuter {K : Type} [Zero K] [Mul K] (row0 col0 : ℕ) (v1 v2 : List K) :
    Except Exception (LA.Matrix K) :=
  let self : LA.Matrix K := ⟨zeros v1.length v2.length, row0, col0⟩
  if v1.length ≠ v2.length then .error .outerProductSize
  else
    let d := loop v1.length (fun i g =>
      loop v2.length (fun j g => gset g i j (v1.getD i 0 * v2.getD j 0)) g) self.data
    .ok { self with data := d }

/-- Function `outer_product` of `LA/vector_utils.h`: `return Matrix<T>(v1, v2);`. -/
def outer_product {K : Type} [Zero K] [Mul K] (row0 col0 : ℕ) (v1 v2 : List K) :
    Except Exception (LA.Matrix K) :=
  LA.Matrix.ofOuter row0 col0 v1 v2

/-- Modelled from the spec: the default constructor `Matrix<T> res;` of the second `Matrix`,
an empty grid with both counts zero; its declaration is not among the sources. -/
def LA.Matrix.empty {K : Type} : LA.Matrix K := ⟨[], 0, 0⟩

/-- Modelled from the spec: member `add_row`, which is not among the sources. It appends
the row to the grid and keeps the cached counts of section 3 in step with it. -/
def LA.Matrix.add_row {K : Type} (self : LA.Matrix K) (r : List K) : LA.Matrix K :=
  ⟨self.data ++ [r], self.row + 1, r.length⟩

/-- Free `operator ^ (const vector<T> & v1, const vector<T> & v2)` of `LA/matrix_impl.h`;
`boost::assign::list_of(a)(b)` is the two-element row `[a, b]`. -/
def LA.vecHatVec {K : Type} [Zero K] (v1 v2 : List K) : Except Exception (LA.Matrix K) :=
  if v1.length ≠ v2.length then .error .incompatibleVectors
  else
    .ok (loop v1.length (fun i res => res.add_row [v1.getD i 0, v2.getD i 0])
      LA.Matrix.empty)

/-- Free `operator ^ (const Matrix<T> & m, const vector<T> & v)` of `LA/matrix_impl.h`.
The copy `res` of `m` is taken first; the loop then runs over the rows of `m` itself
(`itM = m.begin()`) and appends to them; `res` is returned. The result here is the pair of
the returned matrix and the state of the argument `m` after the loop. -/
def LA.matHatVec {K : Type} [Zero K] (m : LA.Matrix K) (v : List K) :
    Except Exception (LA.Matrix K × LA.Matrix K) :=
  if m.data.length ≠ v.length then .error .incompatibleSizes
  else
    let res : LA.Matrix K := m
    let d := loop m.data.length (fun i g => g.set i (g.getD i [] ++ [v.getD i 0])) m.data
    .ok (res, { m with data := d })

/-- Method `Matrix<T>::get_transformed` of `LA/matrix_impl.h`; a null function pointer is
`none`. -/
def LA.Matrix.get_transformed {K : Type} [Zero K] (self : LA.Matrix K)
    (t : Option (List K → List K)) : LA.Matrix K :=
  match t with
  | none => self
  | some f =>
    let transformed : LA.Matrix K := LA.Matrix.new self.nrow 0
    let d := loop self.data.length (fun i g => g.set i (f (self.data.getD i [])))
      transformed.data
    { transformed with data := d }

/-- Function `norm` of `LA/vector_utils.h`. `std::pow` belongs to the C++ standard library
and is the parameter `pow`. -/
def LA.norm {K : Type} [LinearOrderedField K] (pow : K → K → K) (v : List K) (p : K) :
    Except Exception K :=
  if p < 1 then .error .normUndefined
  else
    let sum := v.foldl (fun sum val => sum + pow val p) 0
    .ok (pow sum (1 / p))

/-- The value of `std::pow` at an exponent that is a natural number, where it is the
repeated product; at any other exponent this stand-in returns `0`, and no theorem reads it
there. -/
def powNatExp (x p : ℚ) : ℚ :=
  if p.den = 1 ∧ 0 ≤ p.num then x ^ p.num.toNat else 0

/-- The same grid and counts, read as the second `Matrix`. -/
def LA.ofML {K : Type} (M : ML.Matrix K) : LA.Matrix K := ⟨M.data, M.row, M.col⟩

/-- The 1 x 2 matrix `[[1,2]]` of the specification's `matrix ^ vector` scenario. -/
def LA.row12 : LA.Matrix ℚ := ⟨[[1, 2]], 1, 2⟩

/-- The vector `[9]` of the same scenario. -/
def vec9 : List ℚ := [9]

/-- A 3 x 2 matrix, the operand of the `xtx` example. -/
def ML.tall32 : ML.Matrix ℚ := ⟨[[1, 2], [3, 4], [5, 6]], 3, 2⟩

/-- A 2 x 2 operand of the addition examples. -/
def LA.sq1526 : LA.Matrix ℚ := ⟨[[1, 5], [2, 6]], 2, 2⟩

/-- The second 2 x 2 operand of the addition examples. -/
def LA.sq1122 : LA.Matrix ℚ := ⟨[[1, 1], [2, 2]], 2, 2⟩

/-- A 2 x 2 operand of the addition example for `ML/matrix.h`. -/
def ML.sq1526 : ML.Matrix ℚ := ⟨[[1, 5], [2, 6]], 2, 2⟩

/-- The second 2 x 2 operand of the addition example for `ML/matrix.h`. -/
def ML.sq1122 : ML.Matrix ℚ := ⟨[[1, 1], [2, 2]], 2, 2⟩

/-- A well-formed 2 x 1 matrix, the input of the `transform` examples. -/
def ML.twoRows : ML.Matrix ℚ := ⟨[[1], [2]], 2, 1⟩

/-- A row function whose output width differs from row to row: two elements for the row
`[1]`, one element for every other row. -/
def unevenRowMap (r : List ℚ) : List ℚ := if r = [1] then [1, 1] else [1]

/-- A row function of uniform output width on rows of one width: the row written twice. -/
def doubleRowMap (r : List ℚ) : List ℚ := r ++ r

/-- A 2 x 2 right operand for the products of the 3 x 2 matrix `left23`. -/
def ML.right22 : ML.Matrix ℚ := ⟨[[1, 2], [3, 4]], 2, 2⟩

/-- A finite value of IEEE 754 binary64, the type `double`: the number `m * 2^e`, where
either `m = 0` and `e = 0`, or `2^52 ≤ |m| < 2^53`. Overflow, subnormal values, infinities
and NaN are outside this type; the zero carries no sign, as `-0.0 == 0.0` in the source's
pivot tests. -/
structure Double where
  m : ℤ
  e : ℤ
  deriving DecidableEq, Repr

/-- First step of rounding `N / D * 2^e`: double the numerator, lowering the exponent,
until `2^52 * D ≤ N`. -/
def Double.scaleUp : ℕ → ℕ → ℕ → ℤ → ℕ × ℤ
  | 0, N, _, e => (N, e)
  | fuel + 1, N, D, e =>
    if N < 2 ^ 52 * D then Double.scaleUp fuel (2 * N) D (e - 1) else (N, e)

/-- Second step of rounding `N / D * 2^e`: double the denominator, raising the exponent,
until `N < 2^53 * D`. -/
def Double.scaleDown : ℕ → ℕ → ℕ → ℤ → ℕ × ℤ
  | 0, _, D, e => (D, e)
  | fuel + 1, N, D, e =>
    if 2 ^ 53 * D ≤ N then Double.scaleDown fuel N (2 * D) (e + 1) else (D, e)

/-- Rounding of the exact value `± N / D * 2^e` to binary64: the quotient is brought to 53
bits and rounded to nearest, ties to even. -/
def Double.round (neg : Bool) (N D : ℕ) (e : ℤ) : Double :=
  if N = 0 then ⟨0, 0⟩
  else
    let up := Double.scaleUp 2200 N D e
    let dn := Double.scaleDown 2200 up.1 D up.2
    let N' := up.1
    let D' := dn.1
    let e' := dn.2
    let q := N' / D'
    let r := N' % D'
    let q' := if D' < 2 * r ∨ (2 * r = D' ∧ q % 2 = 1) then q + 1 else q
    let me : ℕ × ℤ := if q' = 2 ^ 53 then (2 ^ 52, e' + 1) else (q', e')
    ⟨if neg then - (me.1 : ℤ) else (me.1 : ℤ), me.2⟩

/-- The `double` nearest to an integer. -/
def Double.ofInt (n : ℤ) : Double := Double.round (decide (n < 0)) n.natAbs 1 0

/-- The exact rational value of a `double`. -/
def Double.toRat (d : Double) : ℚ :=
  if 0 ≤ d.e then (d.m : ℚ) * 2 ^ d.e.toNat else (d.m : ℚ) / 2 ^ (-d.e).toNat

/-- Subtraction of `double`: the exact difference, rounded. -/
def Double.sub (a b : Double) : Double :=
  let e := min a.e b.e
  let M := a.m * 2 ^ (a.e - e).toNat - b.m * 2 ^ (b.e - e).toNat
  Double.round (decide (M < 0)) M.natAbs 1 e

/-- Multiplication of `double`: the exact product, rounded. -/
def Double.mul (a b : Double) : Double :=
  let M := a.m * b.m
  Double.round (decide (M < 0)) M.natAbs 1 (a.e + b.e)

/-- Division of `double`: the exact quotient, rounded. A zero divisor is outside the type
(`invert` tests every pivot before it divides); the value `0` stands there. -/
def Double.div (a b : Double) : Double :=
  if b.m = 0 then ⟨0, 0⟩
  else
    Double.round (decide (a.m < 0) != decide (b.m < 0)) a.m.natAbs b.m.natAbs (a.e - b.e)

instance : Zero Double := ⟨⟨0, 0⟩⟩

instance : One Double := ⟨Double.ofInt 1⟩

instance : Sub Double := ⟨Double.sub⟩

instance : Mul Double := ⟨Double.mul⟩

instance : Div Double := ⟨Double.div⟩

/-- The singular matrix `[[7,21],[9,27]]` over the rationals. -/
def ML.singular79 : ML.Matrix ℚ := ⟨[[7, 21], [9, 27]], 2, 2⟩

/-- The same matrix as a `Matrix<double>`. -/
def ML.singular79D : ML.Matrix Double :=
  ⟨[[Double.ofInt 7, Double.ofInt 21], [Double.ofInt 9, Double.ofInt 27]], 2, 2⟩

/-- The matrix that `invert` returns for `singular79D`, about
`[[-1.0857e15, 8.4442e14], [3.6190e14, -2.8147e14]]`. -/
def ML.singular79DInv : ML.Matrix Double :=
  ⟨[[⟨-8685513567071671, -3⟩, ⟨6755399441055744, -3⟩],
    [⟨5790342378047781, -4⟩, ⟨-4503599627370496, -4⟩]], 2, 2⟩

/-- The singular matrix `[[1,2],[2,4]]` as a `Matrix<double>`. -/
def ML.singular2D : ML.Matrix Double :=
  ⟨[[Double.ofInt 1, Double.ofInt 2], [Double.ofInt 2, Double.ofInt 4]], 2, 2⟩

/-! ## Loop rules -/

theorem loop_inv {σ : Type} (P : ℕ → σ → Prop) (n : ℕ) (body : ℕ → σ → σ) (s : σ)
    (h0 : P 0 s) (hstep : ∀ i, i < n → ∀ t, P i t → P (i + 1) (body i t)) :
    P n (loop n body s) := by
  induction n with
  | zero => exact h0
  | succ n ih =>
    exact hstep n (Nat.lt_succ_self n) _
      (ih (fun i hi t ht => hstep i (Nat.lt_succ_of_lt hi) t ht))

theorem loopM_inv {σ ε : Type} (P : ℕ → σ → Prop) (n : ℕ) (body : ℕ → σ → Except ε σ)
    (s s' : σ) (h0 : P 0 s)
    (hstep : ∀ i, i < n → ∀ t t', P i t → body i t = .ok t' → P (i + 1) t')
    (h : loopM n body s = .ok s') : P n s' := by
  induction n generalizing s' with
  | zero =>
    simp only [loopM, Except.ok.injEq] at h
    exact h ▸ h0
  | succ n ih =>
    simp only [loopM] at h
    cases hn : loopM n body s with
    | error e => rw [hn] at h; cases h
    | ok t =>
      rw [hn] at h
      exact hstep n (Nat.lt_succ_self n) t s'
        (ih t (fun i hi u u' hu hb => hstep i (Nat.lt_succ_of_lt hi) u u' hu hb) hn) h

theorem loopM_progress {σ ε : Type} (P : ℕ → σ → Prop) (n : ℕ) (body : ℕ → σ → Except ε σ)
    (s : σ) (h0 : P 0 s)
    (hstep : ∀ i, i < n → ∀ t, P i t → ∃ t', body i t = .ok t' ∧ P (i + 1) t') :
    ∃ s', loopM n body s = .ok s' ∧ P n s' := by
  induction n with
  | zero => exact ⟨s, rfl, h0⟩
  | succ n ih =>
    obtain ⟨t, ht, hP⟩ := ih (fun i hi u hu => hstep i (Nat.lt_succ_of_lt hi) u hu)
    obtain ⟨t', ht', hP'⟩ := hstep n (Nat.lt_succ_self n) t hP
    exact ⟨t', by simp only [loopM, ht, ht'], hP'⟩

theorem loopM_error {σ ε : Type} (Q : ε → Prop) (n : ℕ) (body : ℕ → σ → Except ε σ)
    (s : σ) (e : ε) (hbody : ∀ i t e', body i t = .error e' → Q e')
    (h : loopM n body s = .error e) : Q e := by
  induction n generalizing e with
  | zero => simp [loopM] at h
  | succ n ih =>
    simp only [loopM] at h
    cases hn : loopM n body s with
    | error e' =>
      rw [hn] at h
      simp only [Except.error.injEq] at h
      subst h
      exact ih _ hn
    | ok t =>
      rw [hn] at h
      exact hbody n t e h

/-- The accumulation loop `elem = 0; for k: elem += f k` is the finite sum. -/
theorem loop_sum {K : Type} [AddCommMonoid K] (n : ℕ) (f : ℕ → K) :
    loop n (fun k elem => elem + f k) 0 = ∑ k in Finset.range n, f k := by
  induction n with
  | zero => simp [loop]
  | succ n ih => simp only [loop, Finset.sum_range_succ]; rw [ih]

/-! ## Grid reads and writes -/

theorem gget_eq_zero_of_row {K : Type} [Zero K] (g : List (List K)) (i j : ℕ)
    (h : g.length ≤ i) : gget g i j = 0 := by
  simp [gget, List.getD_eq_getElem?_getD, List.getElem?_eq_none h]

theorem rect_getD {K : Type} {n m : ℕ} {g : List (List K)} (h : Rect n m g) (i : ℕ)
    (hi : i < n) : (g.getD i []).length = m := by
  have hl : i < g.length := h.1 ▸ hi
  rw [List.getD_eq_getElem?_getD, List.getElem?_eq_getElem hl]
  exact h.2 _ (List.getElem_mem hl)

theorem gget_eq_zero_of_col {K : Type} [Zero K] {n m : ℕ} {g : List (List K)}
    (h : Rect n m g) (i j : ℕ) (hj : m ≤ j) : gget g i j = 0 := by
  by_cases hi : i < n
  · have hl := rect_getD h i hi
    simp only [gget]
    rw [List.getD_eq_getElem?_getD (g.getD i []), List.getElem?_eq_none (by omega)]
    rfl
  · exact gget_eq_zero_of_row g i j (by rw [h.1]; omega)

theorem rect_gset {K : Type} {n m : ℕ} {g : List (List K)} (h : Rect n m g) (i j : ℕ)
    (v : K) : Rect n m (gset g i j v) := by
  by_cases hi : i < n
  · refine ⟨by simp [gset, h.1], ?_⟩
    intro r hr
    rcases List.mem_or_eq_of_mem_set hr with hr | hr
    · exact h.2 r hr
    · rw [hr, List.length_set]; exact rect_getD h i hi
  · have : gset g i j v = g := List.set_eq_of_length_le (by rw [h.1]; omega)
    rw [this]; exact h

theorem getD_set_eq {α : Type} (l : List α) (i a : ℕ) (x d : α) :
    (l.set i x).getD a d = if a = i ∧ i < l.length then x else l.getD a d := by
  simp only [List.getD_eq_getElem?_getD, List.getElem?_set]
  by_cases h : i = a
  · subst h
    by_cases hl : i < l.length
    · simp [hl]
    · simp [hl, List.getElem?_eq_none (Nat.le_of_not_lt hl)]
  · have h' : ¬ a = i := fun e => h e.symm
    simp [h, h']

theorem gget_gset {K : Type} [Zero K] {n m : ℕ} {g : List (List K)} (h : Rect n m g)
    (i j : ℕ) (v : K) (a b : ℕ) :
    gget (gset g i j v) a b = if a = i ∧ b = j ∧ i < n ∧ j < m then v else gget g a b := by
  simp only [gget, gset, getD_set_eq, h.1]
  by_cases ha : a = i ∧ i < n
  · have hlen := rect_getD h i ha.2
    rw [if_pos ha, getD_set_eq, hlen]
    obtain ⟨ha, hi⟩ := ha
    subst ha
    by_cases hb : b = j ∧ j < m
    · rw [if_pos hb, if_pos ⟨rfl, hb.1, hi, hb.2⟩]
    · rw [if_neg hb, if_neg (by tauto)]
  · rw [if_neg ha, if_neg (by tauto)]

theorem rect_zeros {K : Type} [Zero K] (n m : ℕ) : Rect n m (zeros n m : List (List K)) := by
  refine ⟨by simp [zeros], ?_⟩
  intro r hr
  rw [zeros, List.mem_replicate] at hr
  rw [hr.2, List.length_replicate]

theorem gget_zeros {K : Type} [Zero K] (n m a b : ℕ) :
    gget (zeros n m : List (List K)) a b = 0 := by
  simp only [gget, zeros, List.getD_eq_getElem?_getD, List.getElem?_replicate]
  by_cases ha : a < n
  · by_cases hb : b < m
    · simp [ha, hb]
    · simp [ha, hb]
  · simp [ha]

/-- Two rectangular grids of the same shape with the same entries are equal. -/
theorem rect_ext {K : Type} [Zero K] {n m : ℕ} {g g' : List (List K)} (h : Rect n m g)
    (h' : Rect n m g') (he : ∀ a b, a < n → b < m → gget g a b = gget g' a b) : g = g' := by
  apply List.ext_getElem (by rw [h.1, h'.1])
  intro a ha ha'
  have han : a < n := h.1 ▸ ha
  have hr : (g[a]).length = m := h.2 _ (List.getElem_mem ha)
  have hr' : (g'[a]).length = m := h'.2 _ (List.getElem_mem ha')
  apply List.ext_getElem (by rw [hr, hr'])
  intro b hb hb'
  have hbm : b < m := hr ▸ hb
  have := he a b han hbm
  simpa [gget, List.getD_eq_getElem?_getD, List.getElem?_eq_getElem ha,
    List.getElem?_eq_getElem ha', List.getElem?_eq_getElem hb,
    List.getElem?_eq_getElem hb'] using this

/-- The nested fill loops `for a < n: for b < m: g[a][b] = f a b`. -/
theorem fill_spec {K : Type} [Zero K] (n m : ℕ) (f : ℕ → ℕ → K) (g : List (List K))
    (h : Rect n m g) :
    Rect n m (loop n (fun a g => loop m (fun b g => gset g a b (f a b)) g) g) ∧
    ∀ a b, gget (loop n (fun a g => loop m (fun b g => gset g a b (f a b)) g) g) a b =
      if a < n ∧ b < m then f a b else gget g a b := by
  have inner : ∀ (a : ℕ) (g0 : List (List K)), a < n → Rect n m g0 → ∀ k, k ≤ m →
      Rect n m (loop k (fun b g => gset g a b (f a b)) g0) ∧
      ∀ x y, gget (loop k (fun b g => gset g a b (f a b)) g0) x y =
        if x = a ∧ y < k then f a y else gget g0 x y := by
    intro a g0 ha h0 k
    induction k with
    | zero => intro _; exact ⟨h0, fun x y => by simp [loop]⟩
    | succ k ih =>
      intro hk
      obtain ⟨hr, hg⟩ := ih (by omega)
      refine ⟨rect_gset hr _ _ _, fun x y => ?_⟩
      simp only [loop]
      rw [gget_gset hr, hg]
      by_cases hx : x = a
      · by_cases hy : y = k
        · subst hx; subst hy
          rw [if_pos ⟨rfl, rfl, ha, by omega⟩, if_pos ⟨rfl, by omega⟩]
        · rw [if_neg (by tauto)]
          by_cases hy' : y < k
          · rw [if_pos ⟨hx, hy'⟩, if_pos ⟨hx, by omega⟩]
          · rw [if_neg (by tauto), if_neg (by omega)]
      · rw [if_neg (by tauto), if_neg (by tauto), if_neg (by tauto)]
  have outer : ∀ k, k ≤ n →
      Rect n m (loop k (fun a g => loop m (fun b g => gset g a b (f a b)) g) g) ∧
      ∀ x y, gget (loop k (fun a g => loop m (fun b g => gset g a b (f a b)) g) g) x y =
        if x < k ∧ y < m then f x y else gget g x y := by
    intro k
    induction k with
    | zero => intro _; exact ⟨h, fun x y => by simp [loop]⟩
    | succ k ih =>
      intro hk
      obtain ⟨hr, hg⟩ := ih (by omega)
      obtain ⟨hr', hg'⟩ := inner k _ (by omega) hr m (le_refl m)
      refine ⟨hr', fun x y => ?_⟩
      simp only [loop]
      rw [hg', hg]
      by_cases hx : x = k
      · subst hx
        by_cases hy : y < m
        · rw [if_pos ⟨rfl, hy⟩, if_pos ⟨by omega, hy⟩]
        · rw [if_neg (by tauto), if_neg (by omega), if_neg (by tauto)]
      · rw [if_neg (by tauto)]
        by_cases hx' : x < k ∧ y < m
        · rw [if_pos hx', if_pos ⟨by omega, hx'.2⟩]
        · rw [if_neg hx', if_neg (by omega)]
  exact outer n (le_refl n)

/-! ## Entries of the matrices built by `ML/matrix.h` -/

theorem ML.diag_spec {K : Type} [Zero K] (n : ℕ) (lambda : K) :
    Rect n n (ML.Matrix.diag n lambda).data ∧
    ∀ a b, gget (ML.Matrix.diag n lambda).data a b = if a = b ∧ a < n then lambda else 0 := by
  have key : ∀ k, k ≤ n →
      Rect n n (loop k (fun i g => gset g i i lambda) (zeros n n)) ∧
      ∀ a b, gget (loop k (fun i g => gset g i i lambda) (zeros n n)) a b =
        if a = b ∧ a < k then lambda else 0 := by
    intro k
    induction k with
    | zero => intro _; exact ⟨rect_zeros n n, fun a b => by simp [loop, gget_zeros]⟩
    | succ k ih =>
      intro hk
      obtain ⟨hr, hg⟩ := ih (by omega)
      refine ⟨rect_gset hr _ _ _, fun a b => ?_⟩
      simp only [loop]
      rw [gget_gset hr, hg]
      by_cases h1 : a = k ∧ b = k
      · rw [if_pos ⟨h1.1, h1.2, by omega, by omega⟩, if_pos ⟨by omega, by omega⟩]
      · rw [if_neg (by tauto)]
        by_cases h2 : a = b ∧ a < k
        · rw [if_pos h2, if_pos ⟨h2.1, by omega⟩]
        · rw [if_neg h2, if_neg (by omega)]
  exact key n (le_refl n)

theorem ML.initIdent_spec {K : Type} [Zero K] [One K] (n : ℕ) (g : List (List K))
    (h : Rect n n g) :
    Rect n n (ML.initIdent n g) ∧
    ∀ a b, gget (ML.initIdent n g) a b = if a = b ∧ a < n then 1 else gget g a b := by
  have inner : ∀ (i : ℕ) (g0 : List (List K)), i < n → Rect n n g0 → ∀ k, k ≤ n →
      Rect n n (loop k (fun j g => if i = j then gset g i j 1 else g) g0) ∧
      ∀ a b, gget (loop k (fun j g => if i = j then gset g i j 1 else g) g0) a b =
        if a = i ∧ b = i ∧ i < k then 1 else gget g0 a b := by
    intro i g0 hi h0 k
    induction k with
    | zero => intro _; exact ⟨h0, fun a b => by simp [loop]⟩
    | succ k ih =>
      intro hk
      obtain ⟨hr, hg⟩ := ih (by omega)
      simp only [loop]
      by_cases hik : i = k
      · rw [if_pos hik]
        refine ⟨rect_gset hr _ _ _, fun a b => ?_⟩
        rw [gget_gset hr, hg]
        subst hik
        by_cases h1 : a = i ∧ b = i
        · rw [if_pos ⟨h1.1, h1.2, hi, hi⟩, if_pos ⟨h1.1, h1.2, by omega⟩]
        · rw [if_neg (by tauto), if_neg (by tauto), if_neg (by tauto)]
      · rw [if_neg hik]
        refine ⟨hr, fun a b => ?_⟩
        rw [hg]
        by_cases h1 : a = i ∧ b = i ∧ i < k
        · rw [if_pos h1, if_pos ⟨h1.1, h1.2.1, by omega⟩]
        · rw [if_neg h1, if_neg (by omega)]
  have outer : ∀ k, k ≤ n →
      Rect n n (loop k (fun i g => loop n (fun j g => if i = j then gset g i j 1 else g) g) g) ∧
      ∀ a b, gget (loop k
          (fun i g => loop n (fun j g => if i = j then gset g i j 1 else g) g) g) a b =
        if a = b ∧ a < k then 1 else gget g a b := by
    intro k
    induction k with
    | zero => intro _; exact ⟨h, fun a b => by simp [loop]⟩
    | succ k ih =>
      intro hk
      obtain ⟨hr, hg⟩ := ih (by omega)
      obtain ⟨hr', hg'⟩ := inner k _ (by omega) hr n (le_refl n)
      refine ⟨hr', fun a b => ?_⟩
      simp only [loop]
      rw [hg', hg]
      by_cases h1 : a = k ∧ b = k
      · rw [if_pos ⟨h1.1, h1.2, by omega⟩, if_pos ⟨by omega, by omega⟩]
      · rw [if_neg (by tauto)]
        by_cases h2 : a = b ∧ a < k
        · rw [if_pos h2, if_pos ⟨h2.1, by omega⟩]
        · rw [if_neg h2, if_neg (by omega)]
  exact outer n (le_refl n)

theorem ML.mul_spec {K : Type} [Semiring K] (m1 m2 : ML.Matrix K) :
    Rect m1.row m2.col (ML.mul m1 m2).data ∧
    ∀ a b, gget (ML.mul m1 m2).data a b =
      if a < m1.row ∧ b < m2.col then
        ∑ k in Finset.range m2.row, gget m1.data a k * gget m2.data k b
      else 0 := by
  have h := fill_spec m1.row m2.col
    (fun a b => loop m2.row (fun k elem => elem + gget m1.data a k * gget m2.data k b) 0)
    (zeros m1.row m2.col) (rect_zeros _ _)
  refine ⟨h.1, fun a b => ?_⟩
  refine (h.2 a b).trans ?_
  simp only [loop_sum, gget_zeros]

theorem ML.multiply_by_transposed_spec {K : Type} [Semiring K] (m1 m2 : ML.Matrix K) :
    Rect m1.row m2.row (m1.multiply_by_transposed m2).data ∧
    ∀ a b, gget (m1.multiply_by_transposed m2).data a b =
      if a < m1.row ∧ b < m2.row then
        ∑ k in Finset.range m2.col, gget m1.data a k * gget m2.data b k
      else 0 := by
  have h := fill_spec m1.row m2.row
    (fun a b => loop m2.col (fun k elem => elem + gget m1.data a k * gget m2.data b k) 0)
    (zeros m1.row m2.row) (rect_zeros _ _)
  refine ⟨h.1, fun a b => ?_⟩
  refine (h.2 a b).trans ?_
  simp only [loop_sum, gget_zeros]

/-! ## Row operations of `invert` -/

/-- A loop over a pair of independent states is the pair of the loops. -/
theorem loop_pair {α β : Type} (n : ℕ) (f : ℕ → α → α) (h : ℕ → β → β) (s : α × β) :
    loop n (fun k s => (f k s.1, h k s.2)) s = (loop n f s.1, loop n h s.2) := by
  induction n with
  | zero => rfl
  | succ n ih => simp only [loop, ih]

/-- A loop that rewrites row `r` column by column, each new value computed from the
not yet rewritten part of the grid. -/
theorem rowmap_spec {K : Type} [Zero K] (n r : ℕ) (phi : List (List K) → ℕ → K)
    (val : ℕ → K) (g : List (List K)) (hR : Rect n n g) (hr : r < n)
    (hphi : ∀ g' k, k < n → (∀ b, k ≤ b → gget g' r b = gget g r b) →
      (∀ a b, a ≠ r → gget g' a b = gget g a b) → phi g' k = val k) :
    Rect n n (loop n (fun k g => gset g r k (phi g k)) g) ∧
    ∀ a b, gget (loop n (fun k g => gset g r k (phi g k)) g) a b =
      if a = r ∧ b < n then val b else gget g a b := by
  have key : ∀ k, k ≤ n →
      Rect n n (loop k (fun k g => gset g r k (phi g k)) g) ∧
      ∀ a b, gget (loop k (fun k g => gset g r k (phi g k)) g) a b =
        if a = r ∧ b < k then val b else gget g a b := by
    intro k
    induction k with
    | zero => intro _; exact ⟨hR, fun a b => by simp [loop]⟩
    | succ k ih =>
      intro hk
      obtain ⟨hr', hg⟩ := ih (by omega)
      refine ⟨rect_gset hr' _ _ _, fun a b => ?_⟩
      simp only [loop]
      have hv : phi (loop k (fun k g => gset g r k (phi g k)) g) k = val k := by
        apply hphi _ k (by omega)
        · intro b hb; rw [hg, if_neg (by omega)]
        · intro a b ha; rw [hg, if_neg (by tauto)]
      rw [gget_gset hr', hg, hv]
      by_cases h1 : a = r ∧ b = k
      · rw [if_pos ⟨h1.1, h1.2, hr, by omega⟩, if_pos ⟨h1.1, by omega⟩, h1.2]
      · rw [if_neg (by tauto)]
        by_cases h2 : a = r ∧ b < k
        · rw [if_pos h2, if_pos ⟨h2.1, by omega⟩]
        · rw [if_neg h2, if_neg (by omega)]
  exact key n (le_refl n)

theorem ML.elimRow_spec {K : Type} [Field K] (n i j : ℕ) (ratio : K)
    (s : List (List K) × List (List K)) (h1 : Rect n n s.1) (h2 : Rect n n s.2)
    (hij : i ≠ j) (hj : j < n) :
    Rect n n (ML.elimRow n i j ratio s).1 ∧ Rect n n (ML.elimRow n i j ratio s).2 ∧
    (∀ a b, gget (ML.elimRow n i j ratio s).1 a b =
      if a = j ∧ b < n then gget s.1 j b - ratio * gget s.1 i b else gget s.1 a b) ∧
    (∀ a b, gget (ML.elimRow n i j ratio s).2 a b =
      if a = j ∧ b < n then gget s.2 j b - ratio * gget s.2 i b else gget s.2 a b) := by
  have e : ML.elimRow n i j ratio s =
      (loop n (fun k g => gset g j k (gget g j k - ratio * gget g i k)) s.1,
       loop n (fun k g => gset g j k (gget g j k - ratio * gget g i k)) s.2) :=
    loop_pair n (fun k g => gset g j k (gget g j k - ratio * gget g i k))
      (fun k g => gset g j k (gget g j k - ratio * gget g i k)) s
  rw [e]
  have A := rowmap_spec n j (fun g k => gget g j k - ratio * gget g i k)
    (fun k => gget s.1 j k - ratio * gget s.1 i k) s.1 h1 hj
    (fun g' k _ hrow hoth => by simp only [hrow k (le_refl k), hoth i k hij])
  have B := rowmap_spec n j (fun g k => gget g j k - ratio * gget g i k)
    (fun k => gget s.2 j k - ratio * gget s.2 i k) s.2 h2 hj
    (fun g' k _ hrow hoth => by simp only [hrow k (le_refl k), hoth i k hij])
  exact ⟨A.1, B.1, A.2, B.2⟩

theorem ML.normRow_spec {K : Type} [Field K] (n i : ℕ) (a : K)
    (s : List (List K) × List (List K)) (h1 : Rect n n s.1) (h2 : Rect n n s.2)
    (hi : i < n) :
    Rect n n (loop n (fun j s =>
      (gset s.1 i j (gget s.1 i j / a), gset s.2 i j (gget s.2 i j / a))) s).1 ∧
    Rect n n (loop n (fun j s =>
      (gset s.1 i j (gget s.1 i j / a), gset s.2 i j (gget s.2 i j / a))) s).2 ∧
    (∀ x y, gget (loop n (fun j s =>
      (gset s.1 i j (gget s.1 i j / a), gset s.2 i j (gget s.2 i j / a))) s).1 x y =
      if x = i ∧ y < n then gget s.1 i y / a else gget s.1 x y) ∧
    (∀ x y, gget (loop n (fun j s =>
      (gset s.1 i j (gget s.1 i j / a), gset s.2 i j (gget s.2 i j / a))) s).2 x y =
      if x = i ∧ y < n then gget s.2 i y / a else gget s.2 x y) := by
  rw [loop_pair n (fun j g => gset g i j (gget g i j / a))
      (fun j g => gset g i j (gget g i j / a)) s]
  have A := rowmap_spec n i (fun g k => gget g i k / a)
    (fun k => gget s.1 i k / a) s.1 h1 hi
    (fun g' k _ hrow _ => by simp only [hrow k (le_refl k)])
  have B := rowmap_spec n i (fun g k => gget g i k / a)
    (fun k => gget s.2 i k / a) s.2 h2 hi
    (fun g' k _ hrow _ => by simp only [hrow k (le_refl k)])
  exact ⟨A.1, B.1, A.2, B.2⟩

theorem ML.elimBody_step {K : Type} [Field K] [DecidableEq K] (n i j : ℕ)
    (A : List (List K)) (s s' : List (List K) × List (List K)) (hi : i < n) (hj : j < n)
    (hL : ML.Linked n A s) (hC : ML.Cleared n i j s.1)
    (h : ML.elimBody n i j s = .ok s') :
    ML.Linked n A s' ∧ ML.Cleared n i (j + 1) s'.1 := by
  unfold ML.elimBody at h
  by_cases hij : i = j
  · rw [if_neg (by simpa using hij)] at h
    simp only [Except.ok.injEq] at h
    subst h
    refine ⟨hL, fun a c ha hc hac hcase => ?_⟩
    rcases hcase with hlt | ⟨hci, haj⟩
    · exact hC a c ha hc hac (Or.inl hlt)
    · exact hC a c ha hc hac (Or.inr ⟨hci, by omega⟩)
  · rw [if_pos hij] at h
    by_cases hp : gget s.1 i i = 0
    · rw [if_pos hp] at h; cases h
    · rw [if_neg hp] at h
      simp only [Except.ok.injEq] at h
      obtain ⟨hR1, hR2, hM⟩ := hL
      obtain ⟨r1, r2, e1, e2⟩ :=
        ML.elimRow_spec n i j (gget s.1 j i / gget s.1 i i) s hR1 hR2 hij hj
      rw [h] at r1 r2 e1 e2
      have hM' : ∀ a b : Fin n, gget s.1 a.val b.val =
          ∑ l : Fin n, gget s.2 a.val l.val * gget A l.val b.val := by
        intro a b
        have := congrFun (congrFun hM a) b
        simpa [toMat, Matrix.mul_apply] using this
      refine ⟨⟨r1, r2, ?_⟩, ?_⟩
      · ext a b
        simp only [toMat, Matrix.mul_apply, Matrix.of_apply]
        rw [e1]
        by_cases haj : a.val = j
        · rw [if_pos ⟨haj, b.isLt⟩]
          have : ∀ l : Fin n, gget s'.2 a.val l.val =
              gget s.2 j l.val - gget s.1 j i / gget s.1 i i * gget s.2 i l.val := by
            intro l; rw [e2, if_pos ⟨haj, l.isLt⟩]
          simp only [this, sub_mul, Finset.sum_sub_distrib, mul_assoc, ← Finset.mul_sum]
          rw [← hM' ⟨j, hj⟩ b, ← hM' ⟨i, hi⟩ b]
        · rw [if_neg (by tauto)]
          have : ∀ l : Fin n, gget s'.2 a.val l.val = gget s.2 a.val l.val := by
            intro l; rw [e2, if_neg (by tauto)]
          simp only [this]
          exact hM' a b
      · intro a c ha hc hac hcase
        rw [e1]
        by_cases haj : a = j
        · rw [if_pos ⟨haj, hc⟩]
          rcases hcase with hlt | ⟨hci, _⟩
          · rw [hC j c hj hc (by omega) (Or.inl hlt), hC i c hi hc (by omega) (Or.inl hlt)]
            ring
          · subst hci
            field_simp
        · rw [if_neg (by tauto)]
          rcases hcase with hlt | ⟨hci, haj'⟩
          · exact hC a c ha hc hac (Or.inl hlt)
          · exact hC a c ha hc hac (Or.inr ⟨hci, by omega⟩)

theorem ML.eliminate_inv {K : Type} [Field K] [DecidableEq K] (n : ℕ) (A : List (List K))
    (s s' : List (List K) × List (List K)) (hL : ML.Linked n A s)
    (h : ML.eliminate n s = .ok s') :
    ML.Linked n A s' ∧ ML.Cleared n n 0 s'.1 := by
  have key := loopM_inv (fun i t => i ≤ n → ML.Linked n A t ∧ ML.Cleared n i 0 t.1) n
    (fun i s => loopM n (fun j s => ML.elimBody n i j s) s) s s'
    (fun _ => ⟨hL, fun a c _ _ _ hcase => by omega⟩)
    (fun i hi t t' hP ht _ => by
      obtain ⟨hLt, hCt⟩ := hP (by omega)
      have inner := loopM_inv (fun j u => ML.Linked n A u ∧ ML.Cleared n i j u.1) n
        (fun j s => ML.elimBody n i j s) t t' ⟨hLt, hCt⟩
        (fun j hj u u' hu hb => ML.elimBody_step n i j A u u' hi hj hu.1 hu.2 hb) ht
      refine ⟨inner.1, fun a c ha hc hac hcase => ?_⟩
      refine inner.2 a c ha hc hac ?_
      rcases hcase with hlt | ⟨_, h0⟩
      · rcases Nat.lt_succ_iff_lt_or_eq.mp hlt with h1 | h1
        · exact Or.inl h1
        · exact Or.inr ⟨h1, ha⟩
      · omega) h
  exact key (le_refl n)

theorem ML.normalise_inv {K : Type} [Field K] [DecidableEq K] (n : ℕ) (A : List (List K))
    (s s' : List (List K) × List (List K)) (hL : ML.Linked n A s)
    (hC : ML.Cleared n n 0 s.1) (h : ML.normalise n s = .ok s') :
    ML.Linked n A s' ∧ toMat n s'.1 = 1 := by
  have key := loopM_inv
    (fun i t => ML.Linked n A t ∧ ML.Cleared n n 0 t.1 ∧ ∀ a, a < i → gget t.1 a a = 1) n
    (fun i s => ML.normBody n i s) s s' ⟨hL, hC, fun a ha => by omega⟩
    (fun i hi t t' hP ht => by
      obtain ⟨⟨hR1, hR2, hM⟩, hCt, hD⟩ := hP
      simp only [ML.normBody] at ht
      by_cases hp : gget t.1 i i = 0
      · rw [if_pos hp] at ht; cases ht
      · rw [if_neg hp] at ht
        simp only [Except.ok.injEq] at ht
        obtain ⟨r1, r2, e1, e2⟩ := ML.normRow_spec n i (gget t.1 i i) t hR1 hR2 hi
        rw [ht] at r1 r2 e1 e2
        have hM' : ∀ a b : Fin n, gget t.1 a.val b.val =
            ∑ l : Fin n, gget t.2 a.val l.val * gget A l.val b.val := by
          intro a b
          have := congrFun (congrFun hM a) b
          simpa [toMat, Matrix.mul_apply] using this
        refine ⟨⟨r1, r2, ?_⟩, ?_, ?_⟩
        · ext a b
          simp only [toMat, Matrix.mul_apply, Matrix.of_apply]
          rw [e1]
          by_cases hai : a.val = i
          · rw [if_pos ⟨hai, b.isLt⟩]
            have : ∀ l : Fin n, gget t'.2 a.val l.val = gget t.2 i l.val / gget t.1 i i := by
              intro l; rw [e2, if_pos ⟨hai, l.isLt⟩]
            simp only [this, div_mul_eq_mul_div, ← Finset.sum_div]
            rw [← hM' ⟨i, hi⟩ b]
          · rw [if_neg (by tauto)]
            have : ∀ l : Fin n, gget t'.2 a.val l.val = gget t.2 a.val l.val := by
              intro l; rw [e2, if_neg (by tauto)]
            simp only [this]
            exact hM' a b
        · intro a c ha hc hac hcase
          rw [e1]
          by_cases hai : a = i
          · rw [if_pos ⟨hai, hc⟩, hCt i c hi hc (by omega) (Or.inl hc), zero_div]
          · rw [if_neg (by tauto)]
            exact hCt a c ha hc hac hcase
        · intro a ha
          rw [e1]
          by_cases hai : a = i
          · rw [if_pos ⟨hai, by omega⟩, hai, div_self hp]
          · rw [if_neg (by tauto)]
            exact hD a (by omega)) h
  obtain ⟨hL', hC', hD'⟩ := key
  refine ⟨hL', ?_⟩
  ext a b
  simp only [toMat, Matrix.of_apply, Matrix.one_apply]
  by_cases hab : a = b
  · rw [if_pos hab, hab]; exact hD' b.val b.isLt
  · rw [if_neg hab]
    exact hC' a.val b.val a.isLt b.isLt (fun e => hab (Fin.ext e)) (Or.inl b.isLt)

/-- Unfolding of `invert` on a matrix that passes the squareness check. -/
theorem ML.invert_ok_iff {K : Type} [Field K] [DecidableEq K] (A V : ML.Matrix K) :
    A.invert = .ok V ↔ A.row = A.col ∧
      ∃ s s', ML.eliminate A.data.length
          (A.data, ML.initIdent A.data.length (zeros A.data.length A.data.length)) = .ok s ∧
        ML.normalise A.data.length s = .ok s' ∧
        V = ⟨s'.2, A.data.length, A.data.length⟩ := by
  unfold ML.Matrix.invert
  by_cases hsq : A.row = A.col
  · simp only [ML.Matrix.is_square, hsq, beq_self_eq_true, Bool.not_true, Bool.false_eq_true,
      if_false, true_and, ML.Matrix.newSquare]
    cases he : ML.eliminate A.data.length
        (A.data, ML.initIdent A.data.length (zeros A.data.length A.data.length)) with
    | error e => simp
    | ok s =>
      cases hn : ML.normalise A.data.length s with
      | error e => simp [hn]
      | ok s' =>
        simp only [hn, Except.ok.injEq, exists_and_left, exists_eq_left']
        exact eq_comm
  · simp [ML.Matrix.is_square, hsq]

/-- The inverse returned by `invert` is a left inverse of the input, as Mathlib matrices. -/
theorem ML.invert_left_inverse {K : Type} [Field K] [DecidableEq K] (A V : ML.Matrix K)
    (hA : A.WF) (h : A.invert = .ok V) :
    A.row = A.col ∧ V.row = A.row ∧ V.col = A.row ∧ Rect A.row A.row V.data ∧
      toMat A.row V.data * toMat A.row A.data = 1 := by
  obtain ⟨hsq, s, s', he, hn, hV⟩ := (ML.invert_ok_iff A V).mp h
  have hlen : A.data.length = A.row := hA.1
  rw [hlen] at he hn hV
  have hRA : Rect A.row A.row A.data := by
    have := hA; unfold ML.Matrix.WF at this; rwa [← hsq] at this
  have hI := ML.initIdent_spec A.row (zeros A.row A.row : List (List K)) (rect_zeros _ _)
  have hL0 : ML.Linked A.row A.data
      (A.data, ML.initIdent A.row (zeros A.row A.row)) := by
    refine ⟨hRA, hI.1, ?_⟩
    have : toMat A.row (ML.initIdent A.row (zeros A.row A.row : List (List K))) = 1 := by
      ext a b
      simp only [toMat, Matrix.of_apply, Matrix.one_apply, hI.2, gget_zeros]
      by_cases hab : a = b
      · rw [if_pos hab, if_pos ⟨by rw [hab], a.isLt⟩]
      · rw [if_neg hab, if_neg (fun e => hab (Fin.ext e.1))]
    rw [this, one_mul]
  obtain ⟨hL1, hC1⟩ := ML.eliminate_inv A.row A.data _ s hL0 he
  obtain ⟨⟨hR1, hR2, hM⟩, hOne⟩ := ML.normalise_inv A.row A.data s s' hL1 hC1 hn
  subst hV
  refine ⟨hsq, rfl, rfl, hR2, ?_⟩
  rw [← hM, hOne]

/-- Past the squareness check `invert` throws nothing but "matrix cannot be inverted". -/
theorem ML.invert_error_square {K : Type} [Field K] [DecidableEq K] (A : ML.Matrix K)
    (e : Exception) (hsq : A.row = A.col) (h : A.invert = .error e) : e = .cannotInvert := by
  unfold ML.Matrix.invert at h
  simp only [ML.Matrix.is_square, hsq, beq_self_eq_true, Bool.not_true, Bool.false_eq_true,
    if_false] at h
  have hbody : ∀ (n i j : ℕ) (t : List (List K) × List (List K)) (e' : Exception),
      ML.elimBody n i j t = .error e' → e' = .cannotInvert := by
    intro n i j t e' he
    unfold ML.elimBody at he
    split_ifs at he
    simp only [Except.error.injEq] at he
    exact he.symm
  have hnorm : ∀ (n i : ℕ) (t : List (List K) × List (List K)) (e' : Exception),
      ML.normBody n i t = .error e' → e' = .cannotInvert := by
    intro n i t e' he
    simp only [ML.normBody] at he
    split_ifs at he
    simp only [Except.error.injEq] at he
    exact he.symm
  split at h
  · rename_i e' he
    simp only [Except.error.injEq] at h
    subst h
    exact loopM_error (fun x => x = Exception.cannotInvert) _ _ _ _
      (fun i t e' hb => loopM_error (fun x => x = Exception.cannotInvert) _ _ _ _
        (fun j u e'' hb' => hbody _ i j u e'' hb') hb) he
  · rename_i s he
    split at h
    · rename_i e' hn
      simp only [Except.error.injEq] at h
      subst h
      exact loopM_error (fun x => x = Exception.cannotInvert) _ _ _ _
        (fun i t e' hb => hnorm _ i t e' hb) hn
    · cases h

/-- C2, amended. Over exact arithmetic (the element type a field), for every well-formed
square matrix whose determinant is zero, `invert` throws "matrix cannot be inverted" (the
`SingularMatrix` kind) and so returns no matrix. -/
theorem ML.invert_singular {K : Type} [Field K] [DecidableEq K] (A : ML.Matrix K)
    (hA : A.WF) (hsq : A.row = A.col) (hdet : A.Singular) :
    A.invert = .error .cannotInvert ∧
      Exception.kind .cannotInvert = ErrorKind.SingularMatrix := by
  refine ⟨?_, rfl⟩
  cases h : A.invert with
  | error e => rw [ML.invert_error_square A e hsq h]
  | ok V =>
    exfalso
    obtain ⟨_, _, _, _, hleft⟩ := ML.invert_left_inverse A V hA h
    have := congrArg Matrix.det hleft
    rw [Matrix.det_mul, Matrix.det_one] at this
    unfold ML.Matrix.Singular at hdet
    rw [hdet, mul_zero] at this
    exact zero_ne_one this

/-- Witness of C2 at `[[1,2],[2,4]]`. -/
theorem ML.invert_singular_witness :
    ML.singular2.WF ∧ ML.singular2.row = ML.singular2.col ∧ ML.singular2.Singular ∧
      ML.singular2.invert = .error .cannotInvert :=
  have hdet : ML.singular2.Singular := by
    simp [ML.Matrix.Singular, ML.singular2, toMat, Matrix.det_fin_two, gget]
    norm_num
  ⟨by decide, rfl, hdet, (ML.invert_singular ML.singular2 (by decide) rfl hdet).1⟩

/-- C3. `invert` throws "cannot inverse non-square matrix" (the `NotSquare` kind) exactly
when `row != col`; the check is the first statement, so the outcome for a non-square
matrix does not depend on the grid at all: it is never "matrix cannot be inverted" and
never a matrix. -/
theorem ML.invert_nonSquare_iff {K : Type} [Field K] [DecidableEq K] (A : ML.Matrix K) :
    (A.invert = .error .nonSquare ↔ A.row ≠ A.col) ∧
      Exception.kind .nonSquare = ErrorKind.NotSquare := by
  refine ⟨⟨fun h hsq => ?_, fun hne => ?_⟩, rfl⟩
  · have := ML.invert_error_square A _ hsq h
    cases this
  · unfold ML.Matrix.invert
    simp [ML.Matrix.is_square, hne]

/-! ## Inverting a diagonal matrix -/

/-- An elimination step whose ratio is zero leaves both grids as they are. -/
theorem ML.elimBody_noop {K : Type} [Field K] [DecidableEq K] (n i j : ℕ)
    (s : List (List K) × List (List K)) (h1 : Rect n n s.1) (h2 : Rect n n s.2)
    (hj : j < n) (hp : gget s.1 i i ≠ 0) (hz : i ≠ j → gget s.1 j i = 0) :
    ML.elimBody n i j s = .ok s := by
  unfold ML.elimBody
  by_cases hij : i = j
  · rw [if_neg (by simpa using hij)]
  · rw [if_pos hij, if_neg hp, hz hij, zero_div]
    obtain ⟨r1, r2, e1, e2⟩ := ML.elimRow_spec n i j (0 : K) s h1 h2 hij hj
    have a1 : (ML.elimRow n i j (0 : K) s).1 = s.1 := by
      apply rect_ext r1 h1
      intro a b _ _
      rw [e1]
      split_ifs with hc
      · rw [hc.1]; ring
      · rfl
    have a2 : (ML.elimRow n i j (0 : K) s).2 = s.2 := by
      apply rect_ext r2 h2
      intro a b _ _
      rw [e2]
      split_ifs with hc
      · rw [hc.1]; ring
      · rfl
    show Except.ok (ML.elimRow n i j (0 : K) s) = Except.ok s
    rw [show ML.elimRow n i j (0 : K) s = s from Prod.ext a1 a2]

theorem ML.eliminate_diag {K : Type} [Field K] [DecidableEq K] (n : ℕ) (lambda : K)
    (hl : lambda ≠ 0) (s : List (List K) × List (List K)) (h1 : Rect n n s.1)
    (h2 : Rect n n s.2)
    (hd : ∀ a b, gget s.1 a b = if a = b ∧ a < n then lambda else 0) :
    ML.eliminate n s = .ok s := by
  obtain ⟨s', hs', hP⟩ := loopM_progress (fun _ t => t = s) n
    (fun i s => loopM n (fun j s => ML.elimBody n i j s) s) s rfl
    (fun i hi t ht => by
      subst ht
      obtain ⟨t', ht', hQ⟩ := loopM_progress (fun _ u => u = t) n
        (fun j s => ML.elimBody n i j s) t rfl
        (fun j hj u hu => by
          subst hu
          refine ⟨u, ML.elimBody_noop n i j u h1 h2 hj ?_ ?_, rfl⟩
          · rw [hd, if_pos ⟨rfl, hi⟩]; exact hl
          · intro hij; rw [hd, if_neg (by intro hc; exact hij hc.1.symm)])
      exact ⟨t', ht', hQ⟩)
  unfold ML.eliminate
  rw [hs', hP]

theorem ML.normalise_diag {K : Type} [Field K] [DecidableEq K] (n : ℕ) (lambda : K)
    (hl : lambda ≠ 0) (s : List (List K) × List (List K)) (h1 : Rect n n s.1)
    (h2 : Rect n n s.2)
    (hd1 : ∀ a b, gget s.1 a b = if a = b ∧ a < n then lambda else 0)
    (hd2 : ∀ a b, gget s.2 a b = if a = b ∧ a < n then 1 else 0) :
    ∃ s', ML.normalise n s = .ok s' ∧ Rect n n s'.2 ∧
      ∀ a b, gget s'.2 a b = if a = b ∧ a < n then 1 / lambda else 0 := by
  obtain ⟨s', hs', r1, r2, e1, e2⟩ := loopM_progress
    (fun i t => Rect n n t.1 ∧ Rect n n t.2 ∧
      (∀ a b, gget t.1 a b = if a = b ∧ a < n then (if a < i then 1 else lambda) else 0) ∧
      (∀ a b, gget t.2 a b = if a = b ∧ a < n then (if a < i then 1 / lambda else 1) else 0))
    n (fun i s => ML.normBody n i s) s
    ⟨h1, h2, fun a b => by simp [hd1], fun a b => by simp [hd2]⟩
    (fun i hi t ht => by
      obtain ⟨r1, r2, e1, e2⟩ := ht
      have hpiv : gget t.1 i i = lambda := by
        rw [e1, if_pos ⟨rfl, hi⟩, if_neg (lt_irrefl i)]
      obtain ⟨q1, q2, f1, f2⟩ := ML.normRow_spec n i lambda t r1 r2 hi
      refine ⟨_, by simp only [ML.normBody, hpiv, if_neg hl], q1, q2, ?_, ?_⟩
      · intro a b
        rw [f1]
        by_cases hai : a = i
        · subst hai
          rw [e1]
          by_cases hab : a = b
          · subst hab
            simp [hi, hl]
          · by_cases hb : b < n
            · simp [hi, hb, hab, fun e : b = a => hab e.symm]
            · simp [hi, hb, hab]
        · rw [if_neg (by tauto), e1]
          by_cases hab : a = b ∧ a < n
          · rw [if_pos hab, if_pos hab]
            by_cases hlt : a < i
            · rw [if_pos hlt, if_pos (by omega)]
            · rw [if_neg hlt, if_neg (by omega)]
          · rw [if_neg hab, if_neg hab]
      · intro a b
        rw [f2]
        by_cases hai : a = i
        · subst hai
          rw [e2]
          by_cases hab : a = b
          · subst hab
            simp [hi]
          · by_cases hb : b < n
            · simp [hi, hb, hab, fun e : b = a => hab e.symm]
            · simp [hi, hb, hab]
        · rw [if_neg (by tauto), e2]
          by_cases hab : a = b ∧ a < n
          · rw [if_pos hab, if_pos hab]
            by_cases hlt : a < i
            · rw [if_pos hlt, if_pos (by omega)]
            · rw [if_neg hlt, if_neg (by omega)]
          · rw [if_neg hab, if_neg hab])
  refine ⟨s', hs', r2, fun a b => ?_⟩
  rw [e2]
  by_cases hab : a = b ∧ a < n
  · rw [if_pos hab, if_pos hab, if_pos hab.2]
  · rw [if_neg hab, if_neg hab]

/-- C4. For every `n` and every non-zero `lambda`, `invert` applied to `diag(n, lambda)`
succeeds and returns `diag(n, 1/lambda)`. -/
theorem ML.invert_diag {K : Type} [Field K] [DecidableEq K] (n : ℕ) (lambda : K)
    (hl : lambda ≠ 0) :
    (ML.Matrix.diag n lambda).invert = .ok (ML.Matrix.diag n (1 / lambda)) := by
  obtain ⟨hRd, hed⟩ := ML.diag_spec n lambda
  obtain ⟨hRi, hei⟩ := ML.initIdent_spec n (zeros n n : List (List K)) (rect_zeros _ _)
  have hlen : (ML.Matrix.diag n lambda).data.length = n := hRd.1
  have hel := ML.eliminate_diag n lambda hl
    ((ML.Matrix.diag n lambda).data, ML.initIdent n (zeros n n)) hRd hRi hed
  obtain ⟨s', hs', hR', he'⟩ := ML.normalise_diag n lambda hl
    ((ML.Matrix.diag n lambda).data, ML.initIdent n (zeros n n)) hRd hRi hed
    (fun a b => by rw [hei, gget_zeros])
  rw [ML.invert_ok_iff]
  refine ⟨rfl, _, s', by rw [hlen]; exact hel, by rw [hlen]; exact hs', ?_⟩
  rw [hlen]
  obtain ⟨hRd', hed'⟩ := ML.diag_spec n (1 / lambda)
  have : (ML.Matrix.diag n (1 / lambda)).data = s'.2 := by
    apply rect_ext hRd' hR'
    intro a b _ _
    rw [hed', he']
  rw [← this]
  rfl

/-- Witness of C4: `[[2,0],[0,2]]` inverts to `[[1/2,0],[0,1/2]]`. -/
theorem ML.invert_diag_witness :
    (2 : ℚ) ≠ 0 ∧
      ML.Matrix.diag 2 (2 : ℚ) = ⟨[[2, 0], [0, 2]], 2, 2⟩ ∧
      ML.Matrix.diag 2 (1 / 2 : ℚ) = ⟨[[1 / 2, 0], [0, 1 / 2]], 2, 2⟩ ∧
      (ML.Matrix.diag 2 (2 : ℚ)).invert = .ok (ML.Matrix.diag 2 (1 / 2 : ℚ)) :=
  ⟨by norm_num, rfl, rfl, ML.invert_diag 2 (2 : ℚ) (by norm_num)⟩

/-! ## The transposed product -/

/-- Entries and shape of the grid `[[f n k | n < r] | k < c]`. -/
theorem table_spec {K : Type} [Zero K] (c r : ℕ) (f : ℕ → ℕ → K) :
    Rect c r ((List.range c).map (fun k => (List.range r).map (fun n => f n k))) ∧
    ∀ k n, gget ((List.range c).map (fun k => (List.range r).map (fun n => f n k))) k n =
      if k < c ∧ n < r then f n k else 0 := by
  refine ⟨⟨by simp, ?_⟩, fun k n => ?_⟩
  · intro row hrow
    rw [List.mem_map] at hrow
    obtain ⟨k, _, hk⟩ := hrow
    rw [← hk]; simp
  · simp only [gget, List.getD_eq_getElem?_getD, List.getElem?_map, List.getElem?_range]
    by_cases hk : k < c
    · by_cases hn : n < r
      · simp [hk, hn, List.getElem?_range]
      · have : (List.range r)[n]? = none := List.getElem?_eq_none (by simp; omega)
        simp [hk, hn, List.getElem?_range, this]
    · have : (List.range c)[k]? = none := List.getElem?_eq_none (by simp; omega)
      simp [hk, this]

/-- The nested loops `for a < n: for b < m: body a b`, where `body a b` rewrites entry
`(a, b)` only, to a value `F a b` of the old entry. -/
theorem fill_gen {K : Type} [Zero K] (n m : ℕ) (body : ℕ → ℕ → List (List K) → List (List K))
    (F : ℕ → ℕ → K → K) (g : List (List K)) (h : Rect n m g)
    (hbody : ∀ a b g', a < n → b < m → Rect n m g' →
      Rect n m (body a b g') ∧
      ∀ x y, gget (body a b g') x y = if x = a ∧ y = b then F a b (gget g' a b)
        else gget g' x y) :
    Rect n m (loop n (fun a g => loop m (fun b g => body a b g) g) g) ∧
    ∀ a b, gget (loop n (fun a g => loop m (fun b g => body a b g) g) g) a b =
      if a < n ∧ b < m then F a b (gget g a b) else gget g a b := by
  have inner : ∀ (a : ℕ) (g0 : List (List K)), a < n → Rect n m g0 → ∀ k, k ≤ m →
      Rect n m (loop k (fun b g => body a b g) g0) ∧
      ∀ x y, gget (loop k (fun b g => body a b g) g0) x y =
        if x = a ∧ y < k then F a y (gget g0 a y) else gget g0 x y := by
    intro a g0 ha h0 k
    induction k with
    | zero => intro _; exact ⟨h0, fun x y => by simp [loop]⟩
    | succ k ih =>
      intro hk
      obtain ⟨hr, hg⟩ := ih (by omega)
      obtain ⟨hr', hg'⟩ := hbody a k _ ha (by omega) hr
      refine ⟨hr', fun x y => ?_⟩
      simp only [loop]
      rw [hg']
      by_cases hx : x = a
      · by_cases hy : y = k
        · subst hx; subst hy
          rw [if_pos ⟨rfl, rfl⟩, if_pos ⟨rfl, by omega⟩, hg, if_neg (by omega)]
        · rw [if_neg (by tauto), hg]
          by_cases hy' : y < k
          · rw [if_pos ⟨hx, hy'⟩, if_pos ⟨hx, by omega⟩]
          · rw [if_neg (by tauto), if_neg (by omega)]
      · rw [if_neg (by tauto), hg, if_neg (by tauto), if_neg (by tauto)]
  have outer : ∀ k, k ≤ n →
      Rect n m (loop k (fun a g => loop m (fun b g => body a b g) g) g) ∧
      ∀ x y, gget (loop k (fun a g => loop m (fun b g => body a b g) g) g) x y =
        if x < k ∧ y < m then F x y (gget g x y) else gget g x y := by
    intro k
    induction k with
    | zero => intro _; exact ⟨h, fun x y => by simp [loop]⟩
    | succ k ih =>
      intro hk
      obtain ⟨hr, hg⟩ := ih (by omega)
      obtain ⟨hr', hg'⟩ := inner k _ (by omega) hr m (le_refl m)
      refine ⟨hr', fun x y => ?_⟩
      simp only [loop]
      rw [hg']
      by_cases hx : x = k
      · subst hx
        by_cases hy : y < m
        · rw [if_pos ⟨rfl, hy⟩, if_pos ⟨by omega, hy⟩, hg, if_neg (by omega)]
        · rw [if_neg (by tauto), if_neg (by tauto), hg, if_neg (by tauto)]
      · rw [if_neg (by tauto), hg]
        by_cases hx' : x < k ∧ y < m
        · rw [if_pos hx', if_pos ⟨by omega, hx'.2⟩]
        · rw [if_neg hx', if_neg (by omega)]
  exact outer n (le_refl n)

/-- Accumulating into the grid entry itself: `for k < c: g[a][b] += f k`. -/
theorem accum_spec {K : Type} [AddCommMonoid K] (n m a b c : ℕ) (f : ℕ → K)
    (g : List (List K)) (h : Rect n m g) (ha : a < n) (hb : b < m) :
    Rect n m (loop c (fun k g => gset g a b (gget g a b + f k)) g) ∧
    ∀ x y, gget (loop c (fun k g => gset g a b (gget g a b + f k)) g) x y =
      if x = a ∧ y = b then gget g a b + ∑ k in Finset.range c, f k else gget g x y := by
  induction c with
  | zero =>
    refine ⟨h, fun x y => ?_⟩
    simp only [loop, Finset.range_zero, Finset.sum_empty, add_zero]
    split_ifs with hxy
    · rw [hxy.1, hxy.2]
    · rfl
  | succ c ih =>
    obtain ⟨hr, hg⟩ := ih
    refine ⟨rect_gset hr _ _ _, fun x y => ?_⟩
    simp only [loop]
    rw [gget_gset hr]
    by_cases hxy : x = a ∧ y = b
    · rw [if_pos ⟨hxy.1, hxy.2, ha, hb⟩, if_pos hxy, hg, if_pos ⟨rfl, rfl⟩,
        Finset.sum_range_succ, add_assoc]
    · rw [if_neg (by tauto), if_neg hxy, hg, if_neg hxy]

theorem LA.multiply_by_transposed_entries {K : Type} [Semiring K] (m1 m2 : LA.Matrix K) :
    Rect m1.row m2.row (m1.multiply_by_transposed m2).data ∧
    ∀ a b, gget (m1.multiply_by_transposed m2).data a b =
      if a < m1.row ∧ b < m2.row then
        ∑ k in Finset.range m2.col, gget m1.data a k * gget m2.data b k
      else 0 := by
  have h := fill_spec m1.row m2.row
    (fun a b => loop m2.col (fun k elem => elem + gget m1.data a k * gget m2.data b k) 0)
    (zeros m1.row m2.row) (rect_zeros _ _)
  refine ⟨h.1, fun a b => ?_⟩
  refine (h.2 a b).trans ?_
  simp only [loop_sum, gget_zeros]

theorem LA.mul_entries {K : Type} [Semiring K] (m1 m2 : LA.Matrix K) :
    Rect m1.row m2.col (m1.mul m2).data ∧
    ∀ a b, gget (m1.mul m2).data a b =
      if a < m1.row ∧ b < m2.col then
        ∑ k in Finset.range m2.row, gget m1.data a k * gget m2.data k b
      else 0 := by
  have h := fill_gen m1.row m2.col
    (fun a b g => loop m2.row (fun k g =>
      gset g a b (gget g a b + gget m1.data a k * gget m2.data k b)) g)
    (fun a b v => v + ∑ k in Finset.range m2.row, gget m1.data a k * gget m2.data k b)
    (zeros m1.row m2.col) (rect_zeros _ _)
    (fun a b g' ha hb hr =>
      accum_spec m1.row m2.col a b m2.row
        (fun k => gget m1.data a k * gget m2.data k b) g' hr ha hb)
  refine ⟨h.1, fun a b => ?_⟩
  refine (h.2 a b).trans ?_
  simp only [gget_zeros, zero_add]

/-- C5. For all well-formed matrices `A`, `B` with `A.colCount == B.colCount`,
`A.multiply_by_transposed(B)` is the very matrix `A * transpose(B)` computed by the
ordinary product, of shape `A.rowCount x B.rowCount`; this holds for the `Matrix` of
`ML/matrix.h` and for the one of `LA/matrix_impl.h`. -/
theorem multiply_by_transposed_eq_mul_transpose {K : Type} [Semiring K]
    (A B : ML.Matrix K) (A' B' : LA.Matrix K) (_hA : A.WF) (_hB : B.WF)
    (_hcol : A.col = B.col) (_hA' : A'.WF) (_hB' : B'.WF) (_hcol' : A'.col = B'.col) :
    (A.multiply_by_transposed B = ML.mul A (ML.transpose B) ∧
      (A.multiply_by_transposed B).row = A.row ∧ (A.multiply_by_transposed B).col = B.row ∧
      Rect A.row B.row (A.multiply_by_transposed B).data) ∧
    (A'.multiply_by_transposed B' = A'.mul (LA.transpose B') ∧
      (A'.multiply_by_transposed B').row = A'.row ∧
      (A'.multiply_by_transposed B').col = B'.row ∧
      Rect A'.row B'.row (A'.multiply_by_transposed B').data) := by
  constructor
  · obtain ⟨r1, e1⟩ := ML.multiply_by_transposed_spec A B
    obtain ⟨r2, e2⟩ := ML.mul_spec A (ML.transpose B)
    obtain ⟨_, e3⟩ := table_spec B.col B.row (fun n k => gget B.data n k)
    refine ⟨?_, rfl, rfl, r1⟩
    have hdata : (A.multiply_by_transposed B).data = (ML.mul A (ML.transpose B)).data := by
      apply rect_ext r1 r2
      intro a b ha hb
      rw [e1, e2, if_pos ⟨ha, hb⟩, if_pos ⟨ha, hb⟩]
      apply Finset.sum_congr rfl
      intro k hk
      have hk' : k < B.col := Finset.mem_range.mp hk
      have : gget (ML.transpose B).data k b = gget B.data b k := by
        simp only [ML.transpose]
        rw [e3, if_pos ⟨hk', hb⟩]
      rw [this]
    cases hm : A.multiply_by_transposed B with
    | mk d r c =>
      cases hd : ML.mul A (ML.transpose B) with
      | mk d' r' c' =>
        have hrow : (A.multiply_by_transposed B).row = (ML.mul A (ML.transpose B)).row := rfl
        have hc : (A.multiply_by_transposed B).col = (ML.mul A (ML.transpose B)).col := rfl
        rw [hm, hd] at hdata hrow hc
        simp only at hdata hrow hc
        rw [hdata, hrow, hc]
  · obtain ⟨r1, e1⟩ := LA.multiply_by_transposed_entries A' B'
    obtain ⟨r2, e2⟩ := LA.mul_entries A' (LA.transpose B')
    obtain ⟨_, e3⟩ := table_spec B'.col B'.row (fun n k => gget B'.data n k)
    refine ⟨?_, rfl, rfl, r1⟩
    have hdata : (A'.multiply_by_transposed B').data = (A'.mul (LA.transpose B')).data := by
      apply rect_ext r1 r2
      intro a b ha hb
      rw [e1, e2, if_pos ⟨ha, hb⟩, if_pos ⟨ha, hb⟩]
      apply Finset.sum_congr rfl
      intro k hk
      have hk' : k < B'.col := Finset.mem_range.mp hk
      have : gget (LA.transpose B').data k b = gget B'.data b k := by
        simp only [LA.transpose]
        rw [e3, if_pos ⟨hk', hb⟩]
      rw [this]
    cases hm : A'.multiply_by_transposed B' with
    | mk d r c =>
      cases hd : A'.mul (LA.transpose B') with
      | mk d' r' c' =>
        have hrow : (A'.multiply_by_transposed B').row = (A'.mul (LA.transpose B')).row := rfl
        have hc : (A'.multiply_by_transposed B').col = (A'.mul (LA.transpose B')).col := rfl
        rw [hm, hd] at hdata hrow hc
        simp only at hdata hrow hc
        rw [hdata, hrow, hc]

/-- Witness of C5 at the 3 x 2 matrix `[[1,2],[3,4],[5,6]]` and the 1 x 2 matrix `[[7,8]]`. -/
theorem multiply_by_transposed_eq_mul_transpose_witness :
    ML.left23.WF ∧ ML.right12.WF ∧ ML.left23.col = ML.right12.col ∧
    LA.left23.WF ∧ LA.right12.WF ∧ LA.left23.col = LA.right12.col ∧
    ML.left23.multiply_by_transposed ML.right12 = ML.mul ML.left23 (ML.transpose ML.right12) ∧
    LA.left23.multiply_by_transposed LA.right12 = LA.left23.mul (LA.transpose LA.right12) :=
  have h := multiply_by_transposed_eq_mul_transpose ML.left23 ML.right12 LA.left23 LA.right12
    (by decide) (by decide) rfl (by decide) (by decide) rfl
  ⟨by decide, by decide, rfl, by decide, by decide, rfl, h.1.1, h.2.1⟩

/-! ## Vector utilities -/

/-- Value of `inner_product`: the index sum for equal lengths, the exception otherwise. -/
theorem inner_product_eq {K : Type} [Semiring K] (v1 v2 : List K) :
    inner_product v1 v2 =
      (if v1.length = v2.length then
        .ok (∑ i in Finset.range v1.length, v1.getD i 0 * v2.getD i 0)
      else .error .innerProductSize) := by
  unfold inner_product
  by_cases h : v1.length = v2.length
  · rw [if_neg (by simpa using h), if_pos h, loop_sum]
  · rw [if_pos h, if_neg h]

/-- C6. `inner_product(v1, v2)` throws "inner_product: v1.size() != v2.size()" (the
`DimensionMismatch` kind) exactly when the lengths differ, as for `[1,2]` and `[1,2,3]`;
otherwise it returns the sum over `i` of `v1[i] * v2[i]`, which is `0` for two empty
vectors. -/
theorem inner_product_spec {K : Type} [Semiring K] (v1 v2 : List K) :
    inner_product v1 v2 =
      (if v1.length = v2.length then
        .ok (∑ i in Finset.range v1.length, v1.getD i 0 * v2.getD i 0)
      else .error .innerProductSize) ∧
    ((∃ e, inner_product v1 v2 = .error e) ↔ v1.length ≠ v2.length) ∧
    Exception.kind .innerProductSize = ErrorKind.DimensionMismatch ∧
    inner_product vec12 vec123 = .error .innerProductSize ∧
    inner_product ([] : List K) [] = .ok 0 := by
  refine ⟨inner_product_eq v1 v2, ?_, rfl, rfl, rfl⟩
  rw [inner_product_eq]
  by_cases h : v1.length = v2.length
  · simp [h]
  · simp [h]

/-- C7. For vectors of equal length `inner_product(v1, v2)` and `inner_product(v2, v1)`
both return, and return the same value. -/
theorem inner_product_comm {K : Type} [CommSemiring K] (v1 v2 : List K)
    (h : v1.length = v2.length) :
    ∃ x, inner_product v1 v2 = .ok x ∧ inner_product v2 v1 = .ok x := by
  refine ⟨∑ i in Finset.range v1.length, v1.getD i 0 * v2.getD i 0, ?_, ?_⟩
  · rw [inner_product_eq v1 v2, if_pos h]
  · rw [inner_product_eq v2 v1, if_pos h.symm, h]
    congr 1
    exact Finset.sum_congr rfl (fun i _ => mul_comm _ _)

/-- Witness of C7 at `[1,2]` and `[3,4]`. -/
theorem inner_product_comm_witness :
    vec12.length = vec34.length ∧
      ∃ x, inner_product vec12 vec34 = .ok x ∧ inner_product vec34 vec12 = .ok x :=
  ⟨rfl, inner_product_comm vec12 vec34 rfl⟩

theorem mem_uniqueFrom {K : Type} [DecidableEq K] (l : List K) (a x : K) :
    (x ∈ uniqueFrom a l → x ∈ l) ∧ (x ∈ l → x = a ∨ x ∈ uniqueFrom a l) := by
  induction l generalizing a with
  | nil => simp [uniqueFrom]
  | cons y t ih =>
    simp only [uniqueFrom]
    by_cases hay : a = y
    · rw [if_pos hay]
      refine ⟨fun h => List.mem_cons_of_mem _ ((ih a).1 h), fun h => ?_⟩
      rcases List.mem_cons.mp h with h | h
      · exact Or.inl (h.trans hay.symm)
      · exact (ih a).2 h
    · rw [if_neg hay]
      refine ⟨fun h => ?_, fun h => ?_⟩
      · rcases List.mem_cons.mp h with h | h
        · exact h ▸ List.mem_cons_self _ _
        · exact List.mem_cons_of_mem _ ((ih y).1 h)
      · rcases List.mem_cons.mp h with h | h
        · exact Or.inr (h ▸ List.mem_cons_self _ _)
        · rcases (ih y).2 h with h' | h'
          · exact Or.inr (h' ▸ List.mem_cons_self _ _)
          · exact Or.inr (List.mem_cons_of_mem _ h')

theorem mem_unique {K : Type} [DecidableEq K] (l : List K) (x : K) :
    x ∈ unique l ↔ x ∈ l := by
  cases l with
  | nil => simp [unique]
  | cons y t =>
    simp only [unique, List.mem_cons]
    constructor
    · rintro (h | h)
      · exact Or.inl h
      · exact Or.inr ((mem_uniqueFrom t y x).1 h)
    · rintro (h | h)
      · exact Or.inl h
      · exact (mem_uniqueFrom t y x).2 h

theorem sorted_uniqueFrom {K : Type} [LinearOrder K] (l : List K) (a : K)
    (hs : List.Sorted (fun x y => x ≤ y) l) (ha : ∀ y ∈ l, a ≤ y) :
    List.Sorted (fun x y => x < y) (uniqueFrom a l) ∧ ∀ y ∈ uniqueFrom a l, a < y := by
  induction l generalizing a with
  | nil => simp [uniqueFrom]
  | cons x t ih =>
    have hst : List.Sorted (fun x y => x ≤ y) t := hs.of_cons
    have hxt : ∀ y ∈ t, x ≤ y := fun y hy => List.rel_of_sorted_cons hs y hy
    simp only [uniqueFrom]
    by_cases hax : a = x
    · rw [if_pos hax]
      exact ih a hst (fun y hy => hax ▸ hxt y hy)
    · rw [if_neg hax]
      have hlt : a < x := lt_of_le_of_ne (ha x (List.mem_cons_self _ _)) hax
      obtain ⟨h1, h2⟩ := ih x hst hxt
      refine ⟨List.sorted_cons.mpr ⟨h2, h1⟩, fun y hy => ?_⟩
      rcases List.mem_cons.mp hy with hy | hy
      · exact hy ▸ hlt
      · exact lt_trans hlt (h2 y hy)

theorem sorted_unique {K : Type} [LinearOrder K] (l : List K)
    (hs : List.Sorted (fun x y => x ≤ y) l) : List.Sorted (fun x y => x < y) (unique l) := by
  cases l with
  | nil => simp [unique]
  | cons x t =>
    obtain ⟨h1, h2⟩ := sorted_uniqueFrom t x hs.of_cons
      (fun y hy => List.rel_of_sorted_cons hs y hy)
    exact List.sorted_cons.mpr ⟨h2, h1⟩

theorem uniqueFrom_of_sorted {K : Type} [LinearOrder K] (l : List K) (a : K)
    (hs : List.Sorted (fun x y => x < y) l) (ha : ∀ y ∈ l, a < y) : uniqueFrom a l = l := by
  induction l generalizing a with
  | nil => rfl
  | cons x t ih =>
    simp only [uniqueFrom]
    rw [if_neg (ne_of_lt (ha x (List.mem_cons_self _ _))),
      ih x hs.of_cons (fun y hy => List.rel_of_sorted_cons hs y hy)]

theorem unique_of_sorted {K : Type} [LinearOrder K] (l : List K)
    (hs : List.Sorted (fun x y => x < y) l) : unique l = l := by
  cases l with
  | nil => rfl
  | cons x t =>
    simp only [unique]
    rw [uniqueFrom_of_sorted t x hs.of_cons (fun y hy => List.rel_of_sorted_cons hs y hy)]

theorem make_vector_set_sorted {K : Type} [LinearOrder K] (v : List K) :
    List.Sorted (fun x y => x < y) (make_vector_set v) :=
  sorted_unique _ (List.sorted_insertionSort (fun a b => a ≤ b) v)

/-- C9. After `make_vector_set` the vector is strictly increasing and holds exactly the
values of the original vector. -/
theorem make_vector_set_spec {K : Type} [LinearOrder K] (v : List K) :
    List.Sorted (fun x y => x < y) (make_vector_set v) ∧
      ∀ x, x ∈ make_vector_set v ↔ x ∈ v := by
  refine ⟨make_vector_set_sorted v, fun x => ?_⟩
  unfold make_vector_set
  rw [mem_unique]
  exact (List.perm_insertionSort (fun a b => a ≤ b) v).mem_iff

/-- C8. `make_vector_set` is idempotent. -/
theorem make_vector_set_idempotent {K : Type} [LinearOrder K] (v : List K) :
    make_vector_set (make_vector_set v) = make_vector_set v := by
  have hs := make_vector_set_sorted v
  have hle : List.Sorted (fun x y => x ≤ y) (make_vector_set v) :=
    List.Pairwise.imp (fun h => le_of_lt h) hs
  show unique (List.insertionSort (fun a b => a ≤ b) (make_vector_set v)) = make_vector_set v
  rw [List.Sorted.insertionSort_eq hle, unique_of_sorted _ hs]

/-! ## Min-max scaling -/

/-- C10, the failing input. With the limits of `double` the running maximum starts at the
positive `2^-1022`, so for the all-negative column `[-1, -2]` it ends at `2^-1022` instead
of `-1`: after `scale(0, 1)` row 0, which held the column maximum, holds
`1 / (2 + 2^-1022)`, not `1`. -/
theorem LA.scale_negColumn :
    LA.negColumn.scale doubleLimits 0 1 = .ok ⟨[[1 / (2 + 1 / 2 ^ 1022)], [0]], 2, 1⟩ ∧
      (1 / (2 + 1 / 2 ^ 1022) : ℚ) ≠ 1 := by
  have hmax : max (-1 : ℚ) (1 / 2 ^ 1022) = 1 / 2 ^ 1022 :=
    max_eq_right (le_trans (by norm_num) (by positivity : (0 : ℚ) ≤ 1 / 2 ^ 1022))
  have hmax2 : max (-2 : ℚ) (1 / 2 ^ 1022) = 1 / 2 ^ 1022 :=
    max_eq_right (le_trans (by norm_num) (by positivity : (0 : ℚ) ≤ 1 / 2 ^ 1022))
  have hpos : (0 : ℚ) < 1 / 2 ^ 1022 := by positivity
  have hmin : min (-1 : ℚ) ((2 ^ 53 - 1) * 2 ^ 971) = -1 :=
    min_eq_left (le_trans (by norm_num) (by positivity : (0 : ℚ) ≤ (2 ^ 53 - 1) * 2 ^ 971))
  have hf : LA.negColumn.featureBounds doubleLimits = ([1 / 2 ^ 1022], [-2]) := by
    simp only [LA.Matrix.featureBounds, LA.negColumn, doubleLimits, loop, List.replicate,
      List.set, List.getD_cons_zero, List.getD_cons_succ, hmax, hmax2, hmin]
    norm_num
  constructor
  · have h1 : ¬ ((1 : ℚ) ≤ 0) := by norm_num
    have h2 : ¬ ((1 / 2 ^ 1022 : ℚ) = -2) := by
      intro h; rw [h] at hpos; norm_num at hpos
    have h3 : ¬ ((-1 : ℚ) = -2) := by norm_num
    have h4 : ¬ ((-1 : ℚ) = 1 / 2 ^ 1022) := by
      intro h; rw [← h] at hpos; norm_num at hpos
    simp only [LA.Matrix.scale, hf]
    simp only [LA.negColumn, loop, LA.Matrix.scaleEntry, gget, gset,
      List.getD_cons_zero, List.getD_cons_succ, List.set, if_neg h1, if_neg h2, if_neg h3,
      if_neg h4, if_true]
    norm_num
  · intro h
    have : (2 : ℚ) + 1 / 2 ^ 1022 = 1 := by
      field_simp at h
      linarith
    linarith

/-- The feature loops for one of the two vectors: after them entry `c` holds the fold of
`op` over column `c`, started from the seed. -/
theorem colfold_spec {K : Type} [Zero K] (op : K → K → K) (seed : K) (g : List (List K))
    (n m : ℕ) :
    (loop n (fun r v => loop m (fun c v =>
        v.set c (op ((g.getD r []).getD c 0) (v.getD c 0))) v) (List.replicate m seed)).length
      = m ∧
    ∀ c, c < m →
      (loop n (fun r v => loop m (fun c v =>
        v.set c (op ((g.getD r []).getD c 0) (v.getD c 0))) v) (List.replicate m seed)).getD c 0
      = loop n (fun r acc => op (gget g r c) acc) seed := by
  have inner : ∀ (r : ℕ) (v0 : List K), v0.length = m → ∀ k, k ≤ m →
      (loop k (fun c v => v.set c (op ((g.getD r []).getD c 0) (v.getD c 0))) v0).length = m ∧
      ∀ c, (loop k (fun c v =>
          v.set c (op ((g.getD r []).getD c 0) (v.getD c 0))) v0).getD c 0 =
        if c < k then op (gget g r c) (v0.getD c 0) else v0.getD c 0 := by
    intro r v0 hv0 k
    induction k with
    | zero => intro _; exact ⟨hv0, fun c => by simp [loop]⟩
    | succ k ih =>
      intro hk
      obtain ⟨hl, hg⟩ := ih (by omega)
      refine ⟨by simp only [loop, List.length_set]; exact hl, fun c => ?_⟩
      simp only [loop]
      rw [getD_set_eq, hl]
      by_cases hck : c = k
      · subst hck
        rw [if_pos ⟨rfl, by omega⟩, if_pos (by omega), hg, if_neg (by omega)]
        rfl
      · rw [if_neg (by tauto), hg]
        by_cases hlt : c < k
        · rw [if_pos hlt, if_pos (by omega)]
        · rw [if_neg hlt, if_neg (by omega)]
  induction n with
  | zero =>
    refine ⟨by simp [loop], fun c hc => ?_⟩
    simp [loop, List.getD_eq_getElem?_getD, List.getElem?_replicate, hc]
  | succ n ih =>
    obtain ⟨hl, hg⟩ := ih
    obtain ⟨hl', hg'⟩ := inner n _ hl m (le_refl m)
    refine ⟨hl', fun c hc => ?_⟩
    simp only [loop]
    rw [hg', if_pos hc, hg c hc]

theorem LA.featureBounds_spec {K : Type} [LinearOrderedField K] (lim : NumericLimits K)
    (M : LA.Matrix K) (c : ℕ) (hc : c < M.col) :
    (M.featureBounds lim).1.getD c 0 =
      loop M.row (fun r acc => max (gget M.data r c) acc) lim.min ∧
    (M.featureBounds lim).2.getD c 0 =
      loop M.row (fun r acc => min (gget M.data r c) acc) lim.max := by
  have hsplit : M.featureBounds lim =
      (loop M.row (fun r v => loop M.col (fun c v =>
          v.set c (max ((M.data.getD r []).getD c 0) (v.getD c 0))) v)
          (List.replicate M.col lim.min),
       loop M.row (fun r v => loop M.col (fun c v =>
          v.set c (min ((M.data.getD r []).getD c 0) (v.getD c 0))) v)
          (List.replicate M.col lim.max)) := by
    unfold LA.Matrix.featureBounds
    have hin : (fun (r : ℕ) (f : List K × List K) => loop M.col (fun c f =>
          (f.1.set c (max ((M.data.getD r []).getD c 0) (f.1.getD c 0)),
           f.2.set c (min ((M.data.getD r []).getD c 0) (f.2.getD c 0)))) f) =
        (fun r f =>
          (loop M.col (fun c v =>
              v.set c (max ((M.data.getD r []).getD c 0) (v.getD c 0))) f.1,
           loop M.col (fun c v =>
              v.set c (min ((M.data.getD r []).getD c 0) (v.getD c 0))) f.2)) := by
      funext r f
      exact loop_pair M.col
        (fun c v => v.set c (max ((M.data.getD r []).getD c 0) (v.getD c 0)))
        (fun c v => v.set c (min ((M.data.getD r []).getD c 0) (v.getD c 0))) f
    show loop M.row (fun r f => loop M.col (fun c f =>
          (f.1.set c (max ((M.data.getD r []).getD c 0) (f.1.getD c 0)),
           f.2.set c (min ((M.data.getD r []).getD c 0) (f.2.getD c 0)))) f)
        (List.replicate M.col lim.min, List.replicate M.col lim.max) = _
    rw [hin]
    exact loop_pair M.row
      (fun r v => loop M.col (fun c v =>
          v.set c (max ((M.data.getD r []).getD c 0) (v.getD c 0))) v)
      (fun r v => loop M.col (fun c v =>
          v.set c (min ((M.data.getD r []).getD c 0) (v.getD c 0))) v)
      (List.replicate M.col lim.min, List.replicate M.col lim.max)
  rw [hsplit]
  exact ⟨(colfold_spec max lim.min M.data M.row M.col).2 c hc,
    (colfold_spec min lim.max M.data M.row M.col).2 c hc⟩

/-- The running maximum dominates the seed and every value met, and is one of them. -/
theorem runmax_spec {K : Type} [LinearOrder K] (f : ℕ → K) (seed : K) (n : ℕ) :
    seed ≤ loop n (fun r acc => max (f r) acc) seed ∧
    (∀ r, r < n → f r ≤ loop n (fun r acc => max (f r) acc) seed) ∧
    (loop n (fun r acc => max (f r) acc) seed = seed ∨
      ∃ r, r < n ∧ loop n (fun r acc => max (f r) acc) seed = f r) := by
  induction n with
  | zero => exact ⟨le_refl _, fun r hr => by omega, Or.inl rfl⟩
  | succ n ih =>
    obtain ⟨h1, h2, h3⟩ := ih
    simp only [loop]
    refine ⟨le_trans h1 (le_max_right _ _), fun r hr => ?_, ?_⟩
    · rcases Nat.lt_succ_iff_lt_or_eq.mp hr with h | h
      · exact le_trans (h2 r h) (le_max_right _ _)
      · rw [h]; exact le_max_left _ _
    · rcases max_choice (f n) (loop n (fun r acc => max (f r) acc) seed) with h | h
      · exact Or.inr ⟨n, Nat.lt_succ_self n, h⟩
      · rw [h]
        rcases h3 with h3 | ⟨r, hr, h3⟩
        · exact Or.inl h3
        · exact Or.inr ⟨r, Nat.lt_succ_of_lt hr, h3⟩

/-- The running minimum is below the seed and every value met, and is one of them. -/
theorem runmin_spec {K : Type} [LinearOrder K] (f : ℕ → K) (seed : K) (n : ℕ) :
    loop n (fun r acc => min (f r) acc) seed ≤ seed ∧
    (∀ r, r < n → loop n (fun r acc => min (f r) acc) seed ≤ f r) ∧
    (loop n (fun r acc => min (f r) acc) seed = seed ∨
      ∃ r, r < n ∧ loop n (fun r acc => min (f r) acc) seed = f r) := by
  induction n with
  | zero => exact ⟨le_refl _, fun r hr => by omega, Or.inl rfl⟩
  | succ n ih =>
    obtain ⟨h1, h2, h3⟩ := ih
    simp only [loop]
    refine ⟨le_trans (min_le_right _ _) h1, fun r hr => ?_, ?_⟩
    · rcases Nat.lt_succ_iff_lt_or_eq.mp hr with h | h
      · exact le_trans (min_le_right _ _) (h2 r h)
      · rw [h]; exact min_le_left _ _
    · rcases min_choice (f n) (loop n (fun r acc => min (f r) acc) seed) with h | h
      · exact Or.inr ⟨n, Nat.lt_succ_self n, h⟩
      · rw [h]
        rcases h3 with h3 | ⟨r, hr, h3⟩
        · exact Or.inl h3
        · exact Or.inr ⟨r, Nat.lt_succ_of_lt hr, h3⟩

/-- Entries of a well-formed matrix after `scale`: every entry is rewritten from its own
old value and the feature bounds of its column. -/
theorem LA.scale_entries {K : Type} [LinearOrderedField K] (lim : NumericLimits K)
    (M : LA.Matrix K) (lb ub : K) (hM : M.WF) (hb : lb < ub) :
    ∃ M', M.scale lim lb ub = .ok M' ∧ M'.row = M.row ∧ M'.col = M.col ∧ M'.WF ∧
      ∀ r c, r < M.row → c < M.col →
        gget M'.data r c = LA.scaleValue ((M.featureBounds lim).1.getD c 0)
          ((M.featureBounds lim).2.getD c 0) lb ub (gget M.data r c) := by
  have h := fill_gen M.row M.col
    (fun r c g => LA.Matrix.scaleEntry (M.featureBounds lim).1 (M.featureBounds lim).2
      lb ub r c g)
    (fun _ c v => LA.scaleValue ((M.featureBounds lim).1.getD c 0)
      ((M.featureBounds lim).2.getD c 0) lb ub v) M.data hM
    (fun a b g' ha hb' hr => by
      dsimp only
      unfold LA.Matrix.scaleEntry LA.scaleValue
      split_ifs with h1 h2 h3
      · exact ⟨hr, fun x y => by
          split_ifs with hxy
          · rw [hxy.1, hxy.2]
          · rfl⟩
      · exact ⟨rect_gset hr _ _ _, fun x y => by
          rw [gget_gset hr]
          by_cases hxy : x = a ∧ y = b
          · rw [if_pos ⟨hxy.1, hxy.2, ha, hb'⟩, if_pos hxy]
          · rw [if_neg (by tauto), if_neg hxy]⟩
      · exact ⟨rect_gset hr _ _ _, fun x y => by
          rw [gget_gset hr]
          by_cases hxy : x = a ∧ y = b
          · rw [if_pos ⟨hxy.1, hxy.2, ha, hb'⟩, if_pos hxy]
          · rw [if_neg (by tauto), if_neg hxy]⟩
      · exact ⟨rect_gset hr _ _ _, fun x y => by
          rw [gget_gset hr]
          by_cases hxy : x = a ∧ y = b
          · rw [if_pos ⟨hxy.1, hxy.2, ha, hb'⟩, if_pos hxy]
          · rw [if_neg (by tauto), if_neg hxy]⟩)
  refine ⟨LA.Matrix.mk (loop M.row (fun r g => loop M.col (fun c g =>
      LA.Matrix.scaleEntry (M.featureBounds lim).1 (M.featureBounds lim).2 lb ub r c g) g)
      M.data) M.row M.col, ?_, rfl, rfl, h.1, fun r c hr hc => ?_⟩
  · unfold LA.Matrix.scale
    rw [if_neg (not_le.mpr hb)]
  · exact (h.2 r c).trans (by rw [if_pos ⟨hr, hc⟩])

/-- What `scale` does on a non-constant column whose values all lie between the two seeds
`numeric_limits<T>::min()` and `numeric_limits<T>::max()`: every value of the column ends
in `[lb, ub]`, every row that held the column minimum holds `lb` and every row that held
the column maximum holds `ub`. -/
theorem LA.scale_column_of_seeded {K : Type} [LinearOrderedField K] (lim : NumericLimits K)
    (M : LA.Matrix K) (lb ub : K) (hM : M.WF) (hb : lb < ub) (c : ℕ) (hc : c < M.col)
    (hseed : ∀ r, r < M.row → lim.min ≤ gget M.data r c ∧ gget M.data r c ≤ lim.max)
    (hnc : ∃ r r', r < M.row ∧ r' < M.row ∧ gget M.data r c ≠ gget M.data r' c) :
    ∃ M', M.scale lim lb ub = .ok M' ∧
      ∀ r, r < M.row →
        lb ≤ gget M'.data r c ∧ gget M'.data r c ≤ ub ∧
        ((∀ r', r' < M.row → gget M.data r c ≤ gget M.data r' c) → gget M'.data r c = lb) ∧
        ((∀ r', r' < M.row → gget M.data r' c ≤ gget M.data r c) → gget M'.data r c = ub) := by
  obtain ⟨M', hM', _, _, _, hent⟩ := LA.scale_entries lim M lb ub hM hb
  obtain ⟨hfmax, hfmin⟩ := LA.featureBounds_spec lim M c hc
  obtain ⟨a1, a2, a3⟩ := runmax_spec (fun r => gget M.data r c) lim.min M.row
  obtain ⟨b1, b2, b3⟩ := runmin_spec (fun r => gget M.data r c) lim.max M.row
  rw [← hfmax] at a1 a2 a3
  rw [← hfmin] at b1 b2 b3
  obtain ⟨r0, r1, hr0, hr1, hne⟩ := hnc
  have hmaxw : ∃ r, r < M.row ∧ (M.featureBounds lim).1.getD c 0 = gget M.data r c := by
    rcases a3 with h | h
    · exact ⟨r0, hr0, le_antisymm (h ▸ (hseed r0 hr0).1) (a2 r0 hr0)⟩
    · exact h
  have hminw : ∃ r, r < M.row ∧ (M.featureBounds lim).2.getD c 0 = gget M.data r c := by
    rcases b3 with h | h
    · exact ⟨r0, hr0, le_antisymm (b2 r0 hr0) (h ▸ (hseed r0 hr0).2)⟩
    · exact h
  have hlt : (M.featureBounds lim).2.getD c 0 < (M.featureBounds lim).1.getD c 0 := by
    rcases lt_or_gt_of_ne hne with h | h
    · exact lt_of_le_of_lt (b2 r0 hr0) (lt_of_lt_of_le h (a2 r1 hr1))
    · exact lt_of_le_of_lt (b2 r1 hr1) (lt_of_lt_of_le h (a2 r0 hr0))
  refine ⟨M', hM', fun r hr => ?_⟩
  rw [hent r c hr hc]
  have hlo := b2 r hr
  have hhi := a2 r hr
  simp only at hlo hhi
  have hsub : (0 : K) < (M.featureBounds lim).1.getD c 0 - (M.featureBounds lim).2.getD c 0 :=
    sub_pos.mpr hlt
  refine ⟨?_, ?_, fun hmin => ?_, fun hmax => ?_⟩
  · unfold LA.scaleValue
    rw [if_neg (ne_of_gt hlt)]
    split_ifs
    · exact le_refl _
    · exact le_of_lt hb
    · have : 0 ≤ (ub - lb) * (gget M.data r c - (M.featureBounds lim).2.getD c 0) /
          ((M.featureBounds lim).1.getD c 0 - (M.featureBounds lim).2.getD c 0) :=
        div_nonneg (mul_nonneg (sub_nonneg.mpr (le_of_lt hb)) (sub_nonneg.mpr hlo))
          (le_of_lt hsub)
      linarith
  · unfold LA.scaleValue
    rw [if_neg (ne_of_gt hlt)]
    split_ifs
    · exact le_of_lt hb
    · exact le_refl _
    · have : (ub - lb) * (gget M.data r c - (M.featureBounds lim).2.getD c 0) /
          ((M.featureBounds lim).1.getD c 0 - (M.featureBounds lim).2.getD c 0) ≤ ub - lb := by
        rw [div_le_iff₀ hsub]
        exact mul_le_mul_of_nonneg_left (sub_le_sub_right hhi _)
          (sub_nonneg.mpr (le_of_lt hb))
      linarith
  · obtain ⟨rm, hrm, hrm'⟩ := hminw
    have : gget M.data r c = (M.featureBounds lim).2.getD c 0 :=
      le_antisymm (hrm' ▸ hmin rm hrm) hlo
    unfold LA.scaleValue
    rw [if_neg (ne_of_gt hlt), if_pos this]
  · obtain ⟨rm, hrm, hrm'⟩ := hmaxw
    have : gget M.data r c = (M.featureBounds lim).1.getD c 0 :=
      le_antisymm hhi (hrm' ▸ hmax rm hrm)
    unfold LA.scaleValue
    rw [if_neg (ne_of_gt hlt), if_neg (by rw [this]; exact ne_of_gt hlt), if_pos this]

/-- The same column as the failing input of C10 shifted to positive values is scaled as
the claim says: the maximum goes to `1`, the minimum to `0`. -/
theorem LA.scale_posColumn :
    LA.posColumn.scale doubleLimits 0 1 = .ok ⟨[[1], [0]], 2, 1⟩ := by
  have hpos : (0 : ℚ) < 1 / 2 ^ 1022 := by positivity
  have hle : (1 / 2 ^ 1022 : ℚ) ≤ 1 := by
    rw [div_le_one (by positivity)]
    exact one_le_pow₀ (by norm_num)
  have hbig : (2 : ℚ) ≤ (2 ^ 53 - 1) * 2 ^ 971 := by
    have h1 : (1 : ℚ) ≤ 2 ^ 971 := one_le_pow₀ (by norm_num)
    have h2 : (2 : ℚ) ≤ 2 ^ 53 - 1 := by norm_num
    nlinarith
  have hmax : max (2 : ℚ) (1 / 2 ^ 1022) = 2 := max_eq_left (by linarith)
  have hmin : min (2 : ℚ) ((2 ^ 53 - 1) * 2 ^ 971) = 2 := min_eq_left hbig
  have hf : LA.posColumn.featureBounds doubleLimits = ([2], [1]) := by
    simp only [LA.Matrix.featureBounds, LA.posColumn, doubleLimits, loop, List.replicate,
      List.set, List.getD_cons_zero, List.getD_cons_succ, hmax, hmin]
    norm_num
  simp only [LA.Matrix.scale, hf]
  simp only [LA.posColumn, loop, LA.Matrix.scaleEntry, gget, gset,
    List.getD_cons_zero, List.getD_cons_succ, List.set]
  norm_num

/-- What `scale` does on a constant column whose value lies between the two seeds
`numeric_limits<T>::min()` and `numeric_limits<T>::max()`: the column is left as it is. -/
theorem LA.scale_constant_of_seeded {K : Type} [LinearOrderedField K] (lim : NumericLimits K)
    (M : LA.Matrix K) (lb ub : K) (hM : M.WF) (hb : lb < ub) (c : ℕ) (hc : c < M.col) (v : K)
    (hconst : ∀ r, r < M.row → gget M.data r c = v) (hlo : lim.min ≤ v) (hhi : v ≤ lim.max)
    (hrow : 0 < M.row) :
    ∃ M', M.scale lim lb ub = .ok M' ∧
      ∀ r, r < M.row → gget M'.data r c = gget M.data r c := by
  obtain ⟨M', hM', _, _, _, hent⟩ := LA.scale_entries lim M lb ub hM hb
  obtain ⟨hfmax, hfmin⟩ := LA.featureBounds_spec lim M c hc
  obtain ⟨a1, a2, a3⟩ := runmax_spec (fun r => gget M.data r c) lim.min M.row
  obtain ⟨b1, b2, b3⟩ := runmin_spec (fun r => gget M.data r c) lim.max M.row
  rw [← hfmax] at a1 a2 a3
  rw [← hfmin] at b1 b2 b3
  have h0 : gget M.data 0 c = v := hconst 0 hrow
  have hmax : (M.featureBounds lim).1.getD c 0 = v := by
    rcases a3 with h | ⟨r, hr, h⟩
    · exact le_antisymm (h ▸ hlo) (h0 ▸ a2 0 hrow)
    · rw [h]; exact hconst r hr
  have hmin : (M.featureBounds lim).2.getD c 0 = v := by
    rcases b3 with h | ⟨r, hr, h⟩
    · exact le_antisymm (h0 ▸ b2 0 hrow) (h ▸ hhi)
    · rw [h]; exact hconst r hr
  refine ⟨M', hM', fun r hr => ?_⟩
  rw [hent r c hr hc, hmax, hmin]
  unfold LA.scaleValue
  rw [if_pos rfl]

/-- C11, the failing input. With the limits of `double` the running maximum of the
constant column `[-5, -5]` ends at the seed `2^-1022`, not at `-5`, so the column is not
recognised as constant: every entry equals the feature minimum and `scale(0, 1)` rewrites
it to the lower bound `0`. -/
theorem LA.scale_constNegColumn :
    LA.constNegColumn.scale doubleLimits 0 1 = .ok ⟨[[0], [0]], 2, 1⟩ ∧
      (∀ r, r < LA.constNegColumn.row → gget LA.constNegColumn.data r 0 = -5) := by
  have hpos : (0 : ℚ) < 1 / 2 ^ 1022 := by positivity
  have hmax : max (-5 : ℚ) (1 / 2 ^ 1022) = 1 / 2 ^ 1022 :=
    max_eq_right (le_trans (by norm_num) (le_of_lt hpos))
  have hmin : min (-5 : ℚ) ((2 ^ 53 - 1) * 2 ^ 971) = -5 :=
    min_eq_left (le_trans (by norm_num) (by positivity : (0 : ℚ) ≤ (2 ^ 53 - 1) * 2 ^ 971))
  have hf : LA.constNegColumn.featureBounds doubleLimits = ([1 / 2 ^ 1022], [-5]) := by
    simp only [LA.Matrix.featureBounds, LA.constNegColumn, doubleLimits, loop, List.replicate,
      List.set, List.getD_cons_zero, List.getD_cons_succ, hmax, hmin]
    norm_num
  constructor
  · have h1 : ¬ ((1 : ℚ) ≤ 0) := by norm_num
    have h2 : ¬ ((1 / 2 ^ 1022 : ℚ) = -5) := by
      intro h; rw [h] at hpos; norm_num at hpos
    simp only [LA.Matrix.scale, hf]
    simp only [LA.constNegColumn, loop, LA.Matrix.scaleEntry, gget, gset,
      List.getD_cons_zero, List.getD_cons_succ, List.set, if_neg h1, if_neg h2, if_true]
  · intro r hr
    have : r = 0 ∨ r = 1 := by
      simp only [LA.constNegColumn] at hr; omega
    rcases this with h | h <;> subst h <;> rfl

/-! ## Outer product and the `^` operators -/

/-- The grid built by the outer-product constructor for vectors of equal length, and its
exception otherwise. -/
theorem outer_product_grid {K : Type} [Semiring K] (row0 col0 : ℕ) (v1 v2 : List K) :
    (v1.length ≠ v2.length → outer_product row0 col0 v1 v2 = .error .outerProductSize) ∧
    (v1.length = v2.length → ∃ M, outer_product row0 col0 v1 v2 = .ok M ∧
      M.row = row0 ∧ M.col = col0 ∧ Rect v1.length v2.length M.data ∧
      ∀ i j, i < v1.length → j < v2.length →
        gget M.data i j = v1.getD i 0 * v2.getD j 0) := by
  constructor
  · intro h
    simp only [outer_product, LA.Matrix.ofOuter, if_pos h]
  · intro h
    have hf := fill_spec v1.length v2.length (fun i j => v1.getD i 0 * v2.getD j 0)
      (zeros v1.length v2.length) (rect_zeros _ _)
    refine ⟨LA.Matrix.mk (loop v1.length (fun i g =>
        loop v2.length (fun j g => gset g i j (v1.getD i 0 * v2.getD j 0)) g)
        (zeros v1.length v2.length)) row0 col0, ?_, rfl, rfl, hf.1, fun i j hi hj => ?_⟩
    · simp only [outer_product, LA.Matrix.ofOuter, if_neg (not_not.mpr h)]
    · exact (hf.2 i j).trans (by rw [if_pos ⟨hi, hj⟩])

/-- C12, the failing input. `outer_product([1,2],[3,4])` builds the grid `[[3,4],[6,8]]`,
but the constructor initialises `row` and `col` from themselves, so the counts of the
returned matrix are whatever their storage held, not `2` and `2`. -/
theorem outer_product_counts_indeterminate (row0 col0 : ℕ) :
    outer_product row0 col0 vec12 vec34 = .ok ⟨[[3, 4], [6, 8]], row0, col0⟩ := by
  simp only [outer_product, LA.Matrix.ofOuter, vec12, vec34, loop, gset, zeros,
    List.length_cons, List.length_nil, List.replicate, List.getD_cons_zero,
    List.getD_cons_succ, List.set]
  norm_num

/-- The matrix that `matrix ^ vector` returns is the copy of its argument taken before the
loop: no column is appended to it. -/
theorem LA.matHatVec_returns_copy {K : Type} [Zero K] (m : LA.Matrix K) (v : List K) :
    (m.data.length ≠ v.length → LA.matHatVec m v = .error .incompatibleSizes) ∧
    (m.data.length = v.length → ∃ m', LA.matHatVec m v = .ok (m, m')) := by
  constructor
  · intro h
    simp only [LA.matHatVec, if_pos h]
  · intro h
    refine ⟨LA.Matrix.mk (loop m.data.length
      (fun i g => g.set i (g.getD i [] ++ [v.getD i 0])) m.data) m.row m.col, ?_⟩
    simp only [LA.matHatVec, if_neg (not_not.mpr h)]

/-- C13, the failing input. `[[1,2]] ^ [9]` returns `[[1,2]]`, not `[[1,2,9]]`: the value
`9` is appended to the row of the argument `m`, and the copy `res` is returned without
it. -/
theorem LA.matHatVec_row12 :
    LA.matHatVec LA.row12 vec9 = .ok (⟨[[1, 2]], 1, 2⟩, ⟨[[1, 2, 9]], 1, 2⟩) := by
  rfl

/-- Rows and row count of the matrix built by `k` calls of `add_row` in `vector ^ vector`. -/
theorem LA.vecHatVec_loop {K : Type} [Zero K] (v1 v2 : List K) (k : ℕ) :
    (loop k (fun i res => LA.Matrix.add_row res [v1.getD i 0, v2.getD i 0])
        (LA.Matrix.empty : LA.Matrix K)).data =
      (List.range k).map (fun i => [v1.getD i 0, v2.getD i 0]) ∧
    (loop k (fun i res => LA.Matrix.add_row res [v1.getD i 0, v2.getD i 0])
        (LA.Matrix.empty : LA.Matrix K)).row = k ∧
    (0 < k → (loop k (fun i res => LA.Matrix.add_row res [v1.getD i 0, v2.getD i 0])
        (LA.Matrix.empty : LA.Matrix K)).col = 2) := by
  induction k with
  | zero => exact ⟨rfl, rfl, fun h => absurd h (lt_irrefl 0)⟩
  | succ k ih =>
    obtain ⟨h1, h2, _⟩ := ih
    refine ⟨?_, ?_, fun _ => rfl⟩
    · show (loop k (fun i res => LA.Matrix.add_row res [v1.getD i 0, v2.getD i 0])
          (LA.Matrix.empty : LA.Matrix K)).data ++ [[v1.getD k 0, v2.getD k 0]] = _
      rw [h1, List.range_succ, List.map_append]
      rfl
    · show (loop k (fun i res => LA.Matrix.add_row res [v1.getD i 0, v2.getD i 0])
          (LA.Matrix.empty : LA.Matrix K)).row + 1 = _
      rw [h2]

/-- C14. For vectors of equal length `n`, `v1 ^ v2` returns a matrix of `n` rows, each of
the two elements `(v1[i], v2[i])`; for vectors of different lengths it throws
"Incompatible vectors" (the `DimensionMismatch` kind). -/
theorem LA.vecHatVec_spec {K : Type} [Zero K] (v1 v2 : List K) :
    (v1.length ≠ v2.length → LA.vecHatVec v1 v2 = .error .incompatibleVectors) ∧
    Exception.kind .incompatibleVectors = ErrorKind.DimensionMismatch ∧
    (v1.length = v2.length → ∃ M, LA.vecHatVec v1 v2 = .ok M ∧
      M.row = v1.length ∧ (0 < v1.length → M.col = 2) ∧ Rect v1.length 2 M.data ∧
      M.data = (List.range v1.length).map (fun i => [v1.getD i 0, v2.getD i 0]) ∧
      ∀ i, i < v1.length → M.data.getD i [] = [v1.getD i 0, v2.getD i 0]) := by
  refine ⟨fun h => ?_, rfl, fun h => ?_⟩
  · simp only [LA.vecHatVec, if_pos h]
  · obtain ⟨hd, hr, hc⟩ := LA.vecHatVec_loop v1 v2 v1.length
    refine ⟨_, by simp only [LA.vecHatVec, if_neg (not_not.mpr h)], hr, hc, ?_, hd, ?_⟩
    · rw [hd]
      refine ⟨by simp, fun r hrow => ?_⟩
      rw [List.mem_map] at hrow
      obtain ⟨i, _, hi⟩ := hrow
      rw [← hi]; rfl
    · intro i hi
      rw [hd, List.getD_eq_getElem?_getD, List.getElem?_map, List.getElem?_range hi]
      rfl

/-- Witness of C14: `[1,2] ^ [3,4]` is `[[1,3],[2,4]]`. -/
theorem LA.vecHatVec_spec_witness :
    vec12.length = vec34.length ∧
      LA.vecHatVec vec12 vec34 = .ok ⟨[[1, 3], [2, 4]], 2, 2⟩ ∧
      ∃ M, LA.vecHatVec vec12 vec34 = .ok M ∧ M.row = vec12.length ∧
        (0 < vec12.length → M.col = 2) ∧ Rect vec12.length 2 M.data ∧
        M.data = (List.range vec12.length).map (fun i => [vec12.getD i 0, vec34.getD i 0]) ∧
        ∀ i, i < vec12.length → M.data.getD i [] = [vec12.getD i 0, vec34.getD i 0] :=
  ⟨rfl, rfl, (LA.vecHatVec_spec vec12 vec34).2.2 rfl⟩

/-! ## Matrix times vector, `xtx` -/

theorem LA.diag_entries {K : Type} [Zero K] (n : ℕ) (val : K) :
    Rect n n (LA.Matrix.diag n val).data ∧
    ∀ a b, gget (LA.Matrix.diag n val).data a b = if a = b ∧ a < n then val else 0 :=
  ML.diag_spec n val

/-- Entries of the column that `matrix * vector` returns for a well-formed matrix whose
column count is the length of the vector. -/
theorem LA.mulVec_entries {K : Type} [Semiring K] (M : LA.Matrix K) (v : List K)
    (hM : M.WF) (hv : v.length = M.col) :
    ∃ R, M.mulVec v = .ok R ∧ R.row = M.row ∧ R.col = 1 ∧ Rect M.row 1 R.data ∧
      ∀ r, r < M.row →
        gget R.data r 0 = ∑ k in Finset.range M.col, gget M.data r k * v.getD k 0 := by
  obtain ⟨d, hd, hR, he⟩ := loopM_progress
    (fun i g => Rect M.row 1 g ∧ ∀ a b, gget g a b =
      if a < i ∧ b = 0 then ∑ k in Finset.range M.col, gget M.data a k * v.getD k 0 else 0)
    M.row
    (fun r g =>
      match inner_product (M.data.getD r []) v with
      | .ok x => .ok (gset g r 0 x)
      | .error e => .error e)
    (zeros M.row 1) ⟨rect_zeros _ _, fun a b => by simp [gget_zeros]⟩
    (fun i hi g hg => by
      obtain ⟨hr, hgg⟩ := hg
      have hlen : (M.data.getD i []).length = v.length := by
        rw [hv]; exact rect_getD hM i hi
      have hip := inner_product_eq (M.data.getD i []) v
      rw [if_pos hlen] at hip
      refine ⟨gset g i 0 (∑ k in Finset.range (M.data.getD i []).length,
          (M.data.getD i []).getD k 0 * v.getD k 0), by simp only [hip],
        rect_gset hr _ _ _, fun a b => ?_⟩
      rw [gget_gset hr, hgg, hlen, hv]
      by_cases h1 : a = i ∧ b = 0
      · rw [if_pos ⟨h1.1, h1.2, hi, Nat.one_pos⟩, if_pos ⟨by omega, h1.2⟩, h1.1]
        rfl
      · rw [if_neg (by tauto)]
        by_cases h2 : a < i ∧ b = 0
        · rw [if_pos h2, if_pos ⟨by omega, h2.2⟩]
        · rw [if_neg h2, if_neg (by omega)])
  refine ⟨LA.Matrix.mk d M.row 1, ?_, rfl, rfl, hR, fun r hr => ?_⟩
  · have hd' : loopM M.nrow (fun r g =>
        match inner_product (M.data.getD r []) v with
        | .ok x => .ok (gset g r 0 x)
        | .error e => .error e) (LA.Matrix.new M.nrow 1 : LA.Matrix K).data = .ok d := hd
    simp only [LA.Matrix.mulVec, hd']
    rfl
  · rw [he, if_pos ⟨hr, rfl⟩]

/-- C15. For every `n` and every vector `v` of length `n`, `diag(n, 1) * v` is the
`n x 1` matrix whose row `r` is the single element `v[r]`. In general, for a well-formed
matrix whose column count is the length of `v`, `matrix * v` is the `rowCount x 1` matrix
whose row `r` is `inner_product(row r, v)`. -/
theorem LA.mulVec_spec {K : Type} [Semiring K] (n : ℕ) (v : List K) (hn : v.length = n)
    (M : LA.Matrix K) (w : List K) (hM : M.WF) (hw : w.length = M.col) :
    (LA.Matrix.diag n (1 : K)).mulVec v = .ok ⟨v.map (fun x => [x]), n, 1⟩ ∧
    ∃ R, M.mulVec w = .ok R ∧ R.row = M.row ∧ R.col = 1 ∧ Rect M.row 1 R.data ∧
      ∀ r, r < M.row → inner_product (M.data.getD r []) w = .ok (gget R.data r 0) := by
  constructor
  · obtain ⟨hRd, hed⟩ := LA.diag_entries n (1 : K)
    obtain ⟨R, hR, hrow, hcol, hrect, hent⟩ :=
      LA.mulVec_entries (LA.Matrix.diag n (1 : K)) v hRd hn
    have hrow' : R.row = n := hrow
    have hrect' : Rect n 1 R.data := hrect
    have hmap : Rect n 1 (v.map (fun x => [x])) := by
      refine ⟨by simp [hn], fun r hr => ?_⟩
      rw [List.mem_map] at hr
      obtain ⟨x, _, hx⟩ := hr
      rw [← hx]; rfl
    have hdata : R.data = v.map (fun x => [x]) := by
      apply rect_ext hrect' hmap
      intro a b ha hb
      have hb0 : b = 0 := by omega
      subst hb0
      have := hent a ha
      rw [this]
      show ∑ k in Finset.range n, gget (LA.Matrix.diag n (1 : K)).data a k * v.getD k 0 = _
      rw [Finset.sum_eq_single a]
      · rw [hed, if_pos ⟨rfl, ha⟩, one_mul]
        have hav : a < v.length := hn ▸ ha
        simp [gget, List.getD_eq_getElem?_getD, List.getElem?_map,
          List.getElem?_eq_getElem hav]
      · intro k _ hka
        rw [hed, if_neg (by intro h; exact hka h.1.symm), zero_mul]
      · intro h
        exact absurd (Finset.mem_range.mpr ha) h
    rw [hR]
    cases R with
    | mk d r c =>
      simp only at hrow' hcol hdata
      rw [hrow', hcol, hdata]
  · obtain ⟨R, hR, hrow, hcol, hrect, hent⟩ := LA.mulVec_entries M w hM hw
    refine ⟨R, hR, hrow, hcol, hrect, fun r hr => ?_⟩
    have hlen : (M.data.getD r []).length = w.length := by
      rw [hw]; exact rect_getD hM r hr
    rw [inner_product_eq, if_pos hlen, hent r hr, hlen, hw]
    rfl

/-- Witness of C15: `diag(3, 1) * [1,2,3]` is `[[1],[2],[3]]`. -/
theorem LA.mulVec_spec_witness :
    vec123.length = 3 ∧ LA.left23.WF ∧ vec12.length = LA.left23.col ∧
      (LA.Matrix.diag 3 (1 : ℚ)).mulVec vec123 = .ok ⟨[[1], [2], [3]], 3, 1⟩ :=
  ⟨rfl, by decide, rfl,
    (LA.mulVec_spec 3 vec123 rfl LA.left23 vec12 (by decide) rfl).1⟩

theorem ML.xtx_entries {K : Type} [Semiring K] (X : ML.Matrix K) :
    Rect X.col X.col X.xtx.data ∧
    ∀ a b, gget X.xtx.data a b =
      if a < X.col ∧ b < X.col then
        ∑ m in Finset.range X.row, gget X.data m a * gget X.data m b
      else 0 := by
  have h := fill_spec X.col X.col
    (fun a b => loop X.row (fun m elem => elem + gget X.data m a * gget X.data m b) 0)
    (zeros X.col X.col) (rect_zeros _ _)
  refine ⟨h.1, fun a b => ?_⟩
  refine (h.2 a b).trans ?_
  simp only [loop_sum, gget_zeros]

/-- C16. For every well-formed matrix `X`, `xtx()` returns a `colCount x colCount` matrix
whose entry `(n, q)` is the sum over all rows `m` of `X[m][n] * X[m][q]`, and the result
is symmetric. -/
theorem ML.xtx_spec {K : Type} [CommSemiring K] (X : ML.Matrix K) (_hX : X.WF) :
    X.xtx.row = X.col ∧ X.xtx.col = X.col ∧ X.xtx.WF ∧
    (∀ n q, n < X.col → q < X.col →
      gget X.xtx.data n q = ∑ m in Finset.range X.row, gget X.data m n * gget X.data m q) ∧
    ∀ n q, gget X.xtx.data n q = gget X.xtx.data q n := by
  obtain ⟨hR, he⟩ := ML.xtx_entries X
  refine ⟨rfl, rfl, hR, fun n q hn hq => ?_, fun n q => ?_⟩
  · rw [he, if_pos ⟨hn, hq⟩]
  · rw [he, he]
    by_cases h : n < X.col ∧ q < X.col
    · rw [if_pos h, if_pos ⟨h.2, h.1⟩]
      exact Finset.sum_congr rfl (fun m _ => mul_comm _ _)
    · rw [if_neg h, if_neg (by tauto)]

/-- Witness of C16 at the 3 x 2 matrix `[[1,2],[3,4],[5,6]]`. -/
theorem ML.xtx_spec_witness :
    ML.tall32.WF ∧ ML.tall32.xtx.WF ∧
      ∀ n q, gget ML.tall32.xtx.data n q = gget ML.tall32.xtx.data q n :=
  have h := ML.xtx_spec ML.tall32 (by decide)
  ⟨by decide, h.2.2.1, h.2.2.2.2⟩

/-! ## Elementwise addition and subtraction -/

theorem LA.walkRow_spec {K : Type} [Zero K] (op : K → K → K) (r q : List K) :
    (LA.walkRow op r q).length = r.length ∧
    ∀ c, c < r.length → (LA.walkRow op r q).getD c 0 = op (r.getD c 0) (q.getD c 0) := by
  induction r generalizing q with
  | nil => exact ⟨rfl, fun c hc => absurd hc (Nat.not_lt_zero c)⟩
  | cons x xs ih =>
    obtain ⟨h1, h2⟩ := ih q.tail
    refine ⟨by simp only [LA.walkRow, List.length_cons, h1], fun c hc => ?_⟩
    cases c with
    | zero =>
      cases q with
      | nil => rfl
      | cons y ys => rfl
    | succ c =>
      have hc' : c < xs.length := by simpa using hc
      simp only [LA.walkRow, List.getD_cons_succ]
      rw [h2 c hc']
      cases q with
      | nil => simp
      | cons y ys => simp

theorem LA.walkRows_spec {K : Type} [Zero K] (op : K → K → K) (d e : List (List K)) :
    (LA.walkRows op d e).length = d.length ∧
    ∀ r, r < d.length →
      (LA.walkRows op d e).getD r [] = LA.walkRow op (d.getD r []) (e.getD r []) := by
  induction d generalizing e with
  | nil => exact ⟨rfl, fun r hr => absurd hr (Nat.not_lt_zero r)⟩
  | cons x xs ih =>
    obtain ⟨h1, h2⟩ := ih e.tail
    refine ⟨by simp only [LA.walkRows, List.length_cons, h1], fun r hr => ?_⟩
    cases r with
    | zero =>
      cases e with
      | nil => rfl
      | cons y ys => rfl
    | succ r =>
      have hr' : r < xs.length := by simpa using hr
      simp only [LA.walkRows, List.getD_cons_succ]
      rw [h2 r hr']
      cases e with
      | nil => simp
      | cons y ys => simp

/-- The iterator loops on a rectangular grid: the shape is kept and every entry is
combined with the entry of the second grid at the same place. -/
theorem LA.walkRows_rect {K : Type} [Zero K] (op : K → K → K) (n m : ℕ)
    (d e : List (List K)) (hd : Rect n m d) :
    Rect n m (LA.walkRows op d e) ∧
    ∀ r c, r < n → c < m →
      gget (LA.walkRows op d e) r c = op (gget d r c) (gget e r c) := by
  obtain ⟨h1, h2⟩ := LA.walkRows_spec op d e
  have hrow : ∀ r, r < n → (LA.walkRows op d e).getD r [] =
      LA.walkRow op (d.getD r []) (e.getD r []) := fun r hr => h2 r (hd.1 ▸ hr)
  refine ⟨⟨h1.trans hd.1, fun row hmem => ?_⟩, fun r c hr hc => ?_⟩
  · obtain ⟨i, hi, rfl⟩ := List.getElem_of_mem hmem
    have hi' : i < n := by rw [← hd.1, ← h1]; exact hi
    have : (LA.walkRows op d e)[i] = (LA.walkRows op d e).getD i [] := by
      rw [List.getD_eq_getElem?_getD, List.getElem?_eq_getElem hi]; rfl
    rw [this, hrow i hi', (LA.walkRow_spec op _ _).1]
    exact rect_getD hd i hi'
  · have hlen := rect_getD hd r hr
    simp only [gget]
    rw [hrow r hr, (LA.walkRow_spec op _ _).2 c (by rw [hlen]; exact hc)]

theorem LA.plusAssign_result {K : Type} [Ring K] (m1 m2 : LA.Matrix K) (hm1 : m1.WF) :
    ((m1.plusAssign m2).2 = some .notCompatiblePlusLA ↔
      (m1.row ≠ m2.row ∨ m1.col ≠ m2.col)) ∧
    ((m1.row ≠ m2.row ∨ m1.col ≠ m2.col) →
      (m1.plusAssign m2).1 = m1 ∧ m1.plus m2 = .error .notCompatiblePlusLA) ∧
    (¬ (m1.row ≠ m2.row ∨ m1.col ≠ m2.col) →
      (m1.plusAssign m2).2 = none ∧ (m1.plusAssign m2).1.row = m1.row ∧
      (m1.plusAssign m2).1.col = m1.col ∧ (m1.plusAssign m2).1.WF ∧
      (∀ r c, r < m1.row → c < m1.col →
        gget (m1.plusAssign m2).1.data r c = gget m1.data r c + gget m2.data r c) ∧
      m1.plus m2 = .ok (m1.plusAssign m2).1) := by
  by_cases h : m1.row ≠ m2.row ∨ m1.col ≠ m2.col
  · have e : m1.plusAssign m2 = (m1, some .notCompatiblePlusLA) := by
      simp only [LA.Matrix.plusAssign, LA.Matrix.nrow, LA.Matrix.ncol, if_pos h]
    refine ⟨by simp [e, h], fun _ => ⟨by rw [e], ?_⟩, fun hn => absurd h hn⟩
    simp only [LA.Matrix.plus, e]
  · have e : m1.plusAssign m2 =
        (LA.Matrix.mk (LA.walkRows (fun a b => a + b) m1.data m2.data) m1.row m1.col,
          none) := by
      simp only [LA.Matrix.plusAssign, LA.Matrix.nrow, LA.Matrix.ncol, if_neg h]
    obtain ⟨hR, hE⟩ := LA.walkRows_rect (fun a b : K => a + b) m1.row m1.col m1.data
      m2.data hm1
    refine ⟨by simp [e, h], fun hd => absurd hd h, fun _ => ?_⟩
    rw [e]
    refine ⟨rfl, rfl, rfl, hR, hE, ?_⟩
    simp only [LA.Matrix.plus, e]

theorem LA.minusAssign_result {K : Type} [Ring K] (m1 m2 : LA.Matrix K) (hm1 : m1.WF) :
    ((m1.minusAssign m2).2 = some .notCompatibleMinus ↔
      (m1.row ≠ m2.row ∨ m1.col ≠ m2.col)) ∧
    ((m1.row ≠ m2.row ∨ m1.col ≠ m2.col) →
      (m1.minusAssign m2).1 = m1 ∧ m1.minus m2 = .error .notCompatibleMinus) ∧
    (¬ (m1.row ≠ m2.row ∨ m1.col ≠ m2.col) →
      (m1.minusAssign m2).2 = none ∧ (m1.minusAssign m2).1.row = m1.row ∧
      (m1.minusAssign m2).1.col = m1.col ∧ (m1.minusAssign m2).1.WF ∧
      (∀ r c, r < m1.row → c < m1.col →
        gget (m1.minusAssign m2).1.data r c = gget m1.data r c - gget m2.data r c) ∧
      m1.minus m2 = .ok (m1.minusAssign m2).1) := by
  by_cases h : m1.row ≠ m2.row ∨ m1.col ≠ m2.col
  · have e : m1.minusAssign m2 = (m1, some .notCompatibleMinus) := by
      simp only [LA.Matrix.minusAssign, LA.Matrix.nrow, LA.Matrix.ncol, if_pos h]
    refine ⟨by simp [e, h], fun _ => ⟨by rw [e], ?_⟩, fun hn => absurd h hn⟩
    simp only [LA.Matrix.minus, e]
  · have e : m1.minusAssign m2 =
        (LA.Matrix.mk (LA.walkRows (fun a b => a - b) m1.data m2.data) m1.row m1.col,
          none) := by
      simp only [LA.Matrix.minusAssign, LA.Matrix.nrow, LA.Matrix.ncol, if_neg h]
    obtain ⟨hR, hE⟩ := LA.walkRows_rect (fun a b : K => a - b) m1.row m1.col m1.data
      m2.data hm1
    refine ⟨by simp [e, h], fun hd => absurd hd h, fun _ => ?_⟩
    rw [e]
    refine ⟨rfl, rfl, rfl, hR, hE, ?_⟩
    simp only [LA.Matrix.minus, e]

theorem ML.plusAssign_free_result {K : Type} [Ring K] (m1 m2 : ML.Matrix K) (hm1 : m1.WF) :
    ((ML.plusAssign m1 m2).2 = some .notCompatiblePlus ↔
      (m1.row ≠ m2.row ∨ m1.col ≠ m2.col)) ∧
    ((m1.row ≠ m2.row ∨ m1.col ≠ m2.col) → (ML.plusAssign m1 m2).1 = m1) ∧
    (¬ (m1.row ≠ m2.row ∨ m1.col ≠ m2.col) →
      (ML.plusAssign m1 m2).2 = none ∧ (ML.plusAssign m1 m2).1.row = m1.row ∧
      (ML.plusAssign m1 m2).1.col = m1.col ∧ (ML.plusAssign m1 m2).1.WF ∧
      (∀ r c, r < m1.row → c < m1.col →
        gget (ML.plusAssign m1 m2).1.data r c = gget m1.data r c + gget m2.data r c)) := by
  by_cases h : m1.row ≠ m2.row ∨ m1.col ≠ m2.col
  · have e : ML.plusAssign m1 m2 = (m1, some .notCompatiblePlus) := by
      simp only [ML.plusAssign, if_pos h]
    exact ⟨by simp [e, h], fun _ => by rw [e], fun hn => absurd h hn⟩
  · have e : ML.plusAssign m1 m2 =
        (ML.Matrix.mk (loop m1.row (fun r g =>
          loop m1.col (fun c g => gset g r c (gget g r c + gget m2.data r c)) g) m1.data)
          m1.row m1.col, none) := by
      simp only [ML.plusAssign, if_neg h]
    have hf := fill_gen m1.row m1.col
      (fun r c g => gset g r c (gget g r c + gget m2.data r c))
      (fun r c x => x + gget m2.data r c) m1.data hm1
      (fun a b g' ha hb hr => ⟨rect_gset hr _ _ _, fun x y => by
        rw [gget_gset hr]
        by_cases hxy : x = a ∧ y = b
        · rw [if_pos ⟨hxy.1, hxy.2, ha, hb⟩, if_pos hxy]
        · rw [if_neg (by tauto), if_neg hxy]⟩)
    refine ⟨by simp [e, h], fun hd => absurd hd h, fun _ => ?_⟩
    rw [e]
    exact ⟨rfl, rfl, rfl, hf.1, fun r c hr hc => (hf.2 r c).trans (by rw [if_pos ⟨hr, hc⟩])⟩

/-- C17. For well-formed matrices, `m1 += m2` throws "not compatible" (the
`DimensionMismatch` kind) exactly when the row counts or the column counts differ, and
then `m1` is as before; otherwise every entry `(r, c)` of `m1` becomes
`m1[r][c] + m2[r][c]`. `m1 + m2` throws in the same case and otherwise returns that sum;
it works on a copy, so neither operand is written. The same holds for `-=` and `-` with
subtraction, and for the `operator+=` of `ML/matrix.h`. -/
theorem matrix_add_sub_spec {K : Type} [Ring K] (m1 m2 : LA.Matrix K) (n1 n2 : ML.Matrix K)
    (hm1 : m1.WF) (_hm2 : m2.WF) (hn1 : n1.WF) (_hn2 : n2.WF) :
    (((m1.plusAssign m2).2 = some .notCompatiblePlusLA ↔
        (m1.row ≠ m2.row ∨ m1.col ≠ m2.col)) ∧
      ((m1.row ≠ m2.row ∨ m1.col ≠ m2.col) →
        (m1.plusAssign m2).1 = m1 ∧ m1.plus m2 = .error .notCompatiblePlusLA) ∧
      (¬ (m1.row ≠ m2.row ∨ m1.col ≠ m2.col) →
        (m1.plusAssign m2).2 = none ∧ (m1.plusAssign m2).1.row = m1.row ∧
        (m1.plusAssign m2).1.col = m1.col ∧ (m1.plusAssign m2).1.WF ∧
        (∀ r c, r < m1.row → c < m1.col →
          gget (m1.plusAssign m2).1.data r c = gget m1.data r c + gget m2.data r c) ∧
        m1.plus m2 = .ok (m1.plusAssign m2).1)) ∧
    (((m1.minusAssign m2).2 = some .notCompatibleMinus ↔
        (m1.row ≠ m2.row ∨ m1.col ≠ m2.col)) ∧
      ((m1.row ≠ m2.row ∨ m1.col ≠ m2.col) →
        (m1.minusAssign m2).1 = m1 ∧ m1.minus m2 = .error .notCompatibleMinus) ∧
      (¬ (m1.row ≠ m2.row ∨ m1.col ≠ m2.col) →
        (m1.minusAssign m2).2 = none ∧ (m1.minusAssign m2).1.row = m1.row ∧
        (m1.minusAssign m2).1.col = m1.col ∧ (m1.minusAssign m2).1.WF ∧
        (∀ r c, r < m1.row → c < m1.col →
          gget (m1.minusAssign m2).1.data r c = gget m1.data r c - gget m2.data r c) ∧
        m1.minus m2 = .ok (m1.minusAssign m2).1)) ∧
    (((ML.plusAssign n1 n2).2 = some .notCompatiblePlus ↔
        (n1.row ≠ n2.row ∨ n1.col ≠ n2.col)) ∧
      ((n1.row ≠ n2.row ∨ n1.col ≠ n2.col) → (ML.plusAssign n1 n2).1 = n1) ∧
      (¬ (n1.row ≠ n2.row ∨ n1.col ≠ n2.col) →
        (ML.plusAssign n1 n2).2 = none ∧ (ML.plusAssign n1 n2).1.row = n1.row ∧
        (ML.plusAssign n1 n2).1.col = n1.col ∧ (ML.plusAssign n1 n2).1.WF ∧
        (∀ r c, r < n1.row → c < n1.col →
          gget (ML.plusAssign n1 n2).1.data r c = gget n1.data r c + gget n2.data r c))) ∧
    Exception.kind .notCompatiblePlusLA = ErrorKind.DimensionMismatch ∧
    Exception.kind .notCompatibleMinus = ErrorKind.DimensionMismatch ∧
    Exception.kind .notCompatiblePlus = ErrorKind.DimensionMismatch :=
  ⟨LA.plusAssign_result m1 m2 hm1, LA.minusAssign_result m1 m2 hm1,
    ML.plusAssign_free_result n1 n2 hn1, rfl, rfl, rfl⟩

/-- Witness of C17 at `[[1,5],[2,6]]` and `[[1,1],[2,2]]`. -/
theorem matrix_add_sub_spec_witness :
    LA.sq1526.WF ∧ LA.sq1122.WF ∧ ML.sq1526.WF ∧ ML.sq1122.WF ∧
      LA.sq1526.plus LA.sq1122 = .ok (LA.sq1526.plusAssign LA.sq1122).1 ∧
      LA.sq1526.minus LA.sq1122 = .ok (LA.sq1526.minusAssign LA.sq1122).1 ∧
      (ML.plusAssign ML.sq1526 ML.sq1122).2 = none :=
  have h := matrix_add_sub_spec LA.sq1526 LA.sq1122 ML.sq1526 ML.sq1122 (by decide) (by decide)
    (by decide) (by decide)
  have hne : ¬ (LA.sq1526.row ≠ LA.sq1122.row ∨ LA.sq1526.col ≠ LA.sq1122.col) := by decide
  have hne' : ¬ (ML.sq1526.row ≠ ML.sq1122.row ∨ ML.sq1526.col ≠ ML.sq1122.col) := by decide
  ⟨by decide, by decide, by decide, by decide, (h.1.2.2 hne).2.2.2.2.2,
    (h.2.1.2.2 hne).2.2.2.2.2,
    (h.2.2.1.2.2 hne').1⟩

/-! ## The p-norm -/

/-- Below `p = 1` `norm` throws "norm of vector is not defined for p < 1", whatever
`std::pow` computes. -/
theorem norm_undefined {K : Type} [LinearOrderedField K] (pow : K → K → K) (v : List K)
    (p : K) :
    (LA.norm pow v p = .error .normUndefined ↔ p < 1) ∧
      Exception.kind .normUndefined = ErrorKind.InvalidArgument := by
  refine ⟨?_, rfl⟩
  unfold LA.norm
  by_cases h : p < 1
  · simp [h]
  · simp [h]

/-- At `p = 1`, where `pow(x, 1)` is `x`, `norm` returns the plain sum of the elements:
no absolute value is taken. -/
theorem norm_one_eq_sum {K : Type} [LinearOrderedField K] (pow : K → K → K)
    (hpow : ∀ x, pow x 1 = x) (v : List K) : LA.norm pow v 1 = .ok v.sum := by
  have hfold : ∀ (l : List K) (acc : K),
      l.foldl (fun sum val => sum + pow val 1) acc = acc + l.sum := by
    intro l
    induction l with
    | nil => intro acc; simp
    | cons x t ih =>
      intro acc
      rw [List.foldl_cons, ih, hpow, List.sum_cons, add_assoc]
  unfold LA.norm
  rw [if_neg (lt_irrefl 1)]
  show Except.ok (pow (List.foldl (fun sum val => sum + pow val 1) 0 v) (1 / 1)) = _
  rw [div_one, hpow, hfold, zero_add]

/-- C18, the failing input. `norm([-1, 2], 1)` returns `1`, the plain sum `-1 + 2`; the
1-norm `|-1| + |2|` is `3`. -/
theorem norm_negative_element :
    LA.norm powNatExp [-1, 2] 1 = .ok 1 ∧ (|(-1 : ℚ)| ^ 1 + |(2 : ℚ)| ^ 1 = 3) := by
  have hpow : ∀ x : ℚ, powNatExp x 1 = x := by
    intro x
    simp [powNatExp]
  refine ⟨?_, by norm_num⟩
  rw [norm_one_eq_sum powNatExp hpow]
  norm_num

/-! ## Rectangularity -/

/-- The loop `for r < n: g[r] = F r` over a grid of `n` rows. -/
theorem rowsSet_spec {K : Type} (n : ℕ) (F : ℕ → List K) (g : List (List K))
    (hg : g.length = n) :
    (loop n (fun r g => g.set r (F r)) g).length = n ∧
    ∀ r, r < n → (loop n (fun r g => g.set r (F r)) g).getD r [] = F r := by
  have key : ∀ k, k ≤ n →
      (loop k (fun r g => g.set r (F r)) g).length = n ∧
      ∀ r, r < k → (loop k (fun r g => g.set r (F r)) g).getD r [] = F r := by
    intro k
    induction k with
    | zero => intro _; exact ⟨hg, fun r hr => absurd hr (Nat.not_lt_zero r)⟩
    | succ k ih =>
      intro hk
      obtain ⟨hl, hr⟩ := ih (by omega)
      refine ⟨by simp only [loop, List.length_set, hl], fun r hrk => ?_⟩
      simp only [loop]
      rw [getD_set_eq, hl]
      by_cases h : r = k
      · rw [if_pos ⟨h, by omega⟩, h]
      · rw [if_neg (by tauto)]
        exact hr r (by omega)
  exact key n (le_refl n)

/-- The grid written by `for r < n: g[r] = F r` is rectangular when all the rows `F r`
have one width. -/
theorem rowsSet_rect {K : Type} (n w : ℕ) (F : ℕ → List K) (g : List (List K))
    (hg : g.length = n) (hF : ∀ r, r < n → (F r).length = w) :
    Rect n w (loop n (fun r g => g.set r (F r)) g) := by
  obtain ⟨hl, hr⟩ := rowsSet_spec n F g hg
  refine ⟨hl, fun row hmem => ?_⟩
  obtain ⟨i, hi, rfl⟩ := List.getElem_of_mem hmem
  have hi' : i < n := hl ▸ hi
  have : (loop n (fun r g => g.set r (F r)) g)[i] =
      (loop n (fun r g => g.set r (F r)) g).getD i [] := by
    rw [List.getD_eq_getElem?_getD, List.getElem?_eq_getElem hi]; rfl
  rw [this, hr i hi']
  exact hF i hi'

/-- Rows of a well-formed grid, read by index, are members of the grid. -/
theorem getD_mem_of_rect {K : Type} {n m : ℕ} {g : List (List K)} (h : Rect n m g) (r : ℕ)
    (hr : r < n) : g.getD r [] ∈ g := by
  have hl : r < g.length := h.1 ▸ hr
  rw [List.getD_eq_getElem?_getD, List.getElem?_eq_getElem hl]
  exact List.getElem_mem hl

theorem ML.transform_rect {K : Type} [Zero K] (X : ML.Matrix K) (t : List K → List K)
    (w : ℕ) (hX : X.WF) (hrow : 0 < X.row) (ht : ∀ r ∈ X.data, (t r).length = w) :
    (X.transform t).WF ∧ (X.transform t).row = X.row ∧ (X.transform t).col = w := by
  have hz : (zeros X.row 0 : List (List K)).length = X.row := (rect_zeros X.row 0).1
  have hF : ∀ r, r < X.row → (t (X.data.getD r [])).length = w :=
    fun r hr => ht _ (getD_mem_of_rect hX r hr)
  have hrect := rowsSet_rect X.row w (fun r => t (X.data.getD r [])) (zeros X.row 0) hz hF
  have hcol : (X.transform t).col = w := by
    show ((loop X.row (fun r g => g.set r (t (X.data.getD r []))) (zeros X.row 0)).getD 0
      []).length = w
    rw [(rowsSet_spec X.row (fun r => t (X.data.getD r [])) (zeros X.row 0) hz).2 0 hrow]
    exact hF 0 hrow
  refine ⟨?_, rfl, hcol⟩
  show Rect (X.transform t).row (X.transform t).col (X.transform t).data
  rw [hcol]
  exact hrect

theorem LA.get_transformed_rect {K : Type} [Zero K] (X : LA.Matrix K) (f : List K → List K)
    (w : ℕ) (hX : X.WF) (hf : ∀ r ∈ X.data, (f r).length = w) :
    Rect X.row w (X.get_transformed (some f)).data := by
  have hz : (zeros X.row 0 : List (List K)).length = X.row := (rect_zeros X.row 0).1
  have hF : ∀ r, r < X.row → (f (X.data.getD r [])).length = w :=
    fun r hr => hf _ (getD_mem_of_rect hX r hr)
  have hrect := rowsSet_rect X.row w (fun r => f (X.data.getD r [])) (zeros X.row 0) hz hF
  have hlen : X.data.length = X.row := hX.1
  show Rect X.row w (loop X.data.length (fun i g => g.set i (f (X.data.getD i [])))
    (zeros X.row 0))
  rw [hlen]
  exact hrect

/-- C19, the counterexample. On the well-formed 2 x 1 matrix `[[1],[2]]` a row function
whose output width differs from row to row makes `transform` return the jagged grid
`[[1,1],[1]]` with `colCount` 2. -/
theorem ML.transform_jagged :
    ML.twoRows.WF ∧ ML.twoRows.transform unevenRowMap = ⟨[[1, 1], [1]], 2, 2⟩ ∧
      ¬ (ML.twoRows.transform unevenRowMap).WF := by
  have h1 : unevenRowMap [1] = [1, 1] := by simp [unevenRowMap]
  have h2 : unevenRowMap [2] = [1] := by
    simp only [unevenRowMap]
    rw [if_neg]
    intro h
    have := List.head_eq_of_cons_eq h
    norm_num at this
  have e : ML.twoRows.transform unevenRowMap = ⟨[[1, 1], [1]], 2, 2⟩ := by
    simp only [ML.Matrix.transform, ML.twoRows, ML.Matrix.new, zeros, loop, List.replicate,
      List.getD_cons_zero, List.getD_cons_succ, List.set, h1, h2, List.length_cons,
      List.length_nil]
  refine ⟨by decide, e, ?_⟩
  rw [e]
  decide

/-- C19, amended. The matrices built by `Matrix(rowCount, colCount)`, `Matrix(n)`, `diag`,
`xtx`, `multiply_by_transposed`, `matrix * matrix` and, from a well-formed matrix, by
`invert`, have exactly `rowCount` rows, each of length `colCount`. For `transform` this
holds when the matrix is well-formed with at least one row and the row function returns
rows of one common width `w` on the rows of the matrix; `colCount` is then `w`. Under the
same condition on the function the grid returned by `get_transformed` has `rowCount` rows
of width `w`. -/
theorem ML.rectangular_of_operations {K : Type} [Field K] [DecidableEq K] :
    (∀ r c : ℕ, (ML.Matrix.new r c : ML.Matrix K).WF) ∧
    (∀ n : ℕ, (ML.Matrix.newSquare n : ML.Matrix K).WF) ∧
    (∀ (n : ℕ) (lambda : K), (ML.Matrix.diag n lambda).WF) ∧
    (∀ X : ML.Matrix K, X.xtx.WF) ∧
    (∀ A B : ML.Matrix K, (A.multiply_by_transposed B).WF) ∧
    (∀ A B : ML.Matrix K, (ML.mul A B).WF) ∧
    (∀ A V : ML.Matrix K, A.WF → A.invert = .ok V → V.WF) ∧
    (∀ (X : ML.Matrix K) (t : List K → List K) (w : ℕ), X.WF → 0 < X.row →
      (∀ r ∈ X.data, (t r).length = w) →
      (X.transform t).WF ∧ (X.transform t).row = X.row ∧ (X.transform t).col = w) ∧
    (∀ (X : LA.Matrix K) (f : List K → List K) (w : ℕ), X.WF →
      (∀ r ∈ X.data, (f r).length = w) →
      Rect X.row w (X.get_transformed (some f)).data) := by
  refine ⟨fun r c => rect_zeros r c, fun n => rect_zeros n n,
    fun n lambda => (ML.diag_spec n lambda).1, fun X => (ML.xtx_entries X).1,
    fun A B => (ML.multiply_by_transposed_spec A B).1, fun A B => (ML.mul_spec A B).1,
    fun A V hA h => ?_, fun X t w hX hrow ht => ML.transform_rect X t w hX hrow ht,
    fun X f w hX hf => LA.get_transformed_rect X f w hX hf⟩
  obtain ⟨_, hr, hc, hR, _⟩ := ML.invert_left_inverse A V hA h
  show Rect V.row V.col V.data
  rw [hr, hc]
  exact hR

/-- Witness of the amended C19: `transform` with the row-doubling function on `[[1],[2]]`
returns a well-formed matrix of two columns. -/
theorem ML.rectangular_of_operations_witness :
    ML.twoRows.WF ∧ 0 < ML.twoRows.row ∧
      (∀ r ∈ ML.twoRows.data, (doubleRowMap r).length = 2) ∧
      (ML.twoRows.transform doubleRowMap).WF ∧ (ML.twoRows.transform doubleRowMap).col = 2 :=
  have huni : ∀ r ∈ ML.twoRows.data, (doubleRowMap r).length = 2 := by
    intro r hr
    simp only [ML.twoRows, List.mem_cons, List.mem_singleton, List.not_mem_nil, or_false] at hr
    rcases hr with h | h <;> subst h <;> rfl
  have h := (ML.rectangular_of_operations (K := ℚ)).2.2.2.2.2.2.2.1 ML.twoRows doubleRowMap 2
    (by decide) (by decide) huni
  ⟨by decide, by decide, huni, h.1, h.2.2⟩

/-! ## Agreement of the two implementations -/

/-- C20. For well-formed matrices of compatible shapes the two implementations agree:
`multiply_by_transposed` of `LA/matrix_impl.h` returns the same grid and counts as the
one of `ML/matrix.h`, and the member `operator*`, which accumulates into the zero
initialised result entry, returns the same grid and counts as the free `operator*`,
which accumulates into a local. -/
theorem la_agrees_with_ml {K : Type} [Semiring K] (A B C : ML.Matrix K) (_hA : A.WF)
    (_hB : B.WF) (_hC : C.WF) (_hAB : A.col = B.col) (_hAC : A.col = C.row) :
    (LA.ofML A).multiply_by_transposed (LA.ofML B) = LA.ofML (A.multiply_by_transposed B) ∧
    (LA.ofML A).mul (LA.ofML C) = LA.ofML (ML.mul A C) := by
  refine ⟨rfl, ?_⟩
  obtain ⟨r1, e1⟩ := LA.mul_entries (LA.ofML A) (LA.ofML C)
  obtain ⟨r2, e2⟩ := ML.mul_spec A C
  have hdata : ((LA.ofML A).mul (LA.ofML C)).data = (ML.mul A C).data := by
    apply rect_ext r1 r2
    intro a b _ _
    rw [e1, e2]
    rfl
  cases hm : (LA.ofML A).mul (LA.ofML C) with
  | mk d r c =>
    have hrow : ((LA.ofML A).mul (LA.ofML C)).row = A.row := rfl
    have hcol : ((LA.ofML A).mul (LA.ofML C)).col = C.col := rfl
    rw [hm] at hdata hrow hcol
    simp only at hdata hrow hcol
    rw [hdata, hrow, hcol]
    rfl

/-- Witness of C20 at `[[1,2],[3,4],[5,6]]`, `[[7,8]]` and `[[1,2],[3,4]]`. -/
theorem la_agrees_with_ml_witness :
    ML.left23.WF ∧ ML.right12.WF ∧ ML.right22.WF ∧ ML.left23.col = ML.right12.col ∧
      ML.left23.col = ML.right22.row ∧
      (LA.ofML ML.left23).multiply_by_transposed (LA.ofML ML.right12) =
        LA.ofML (ML.left23.multiply_by_transposed ML.right12) ∧
      (LA.ofML ML.left23).mul (LA.ofML ML.right22) = LA.ofML (ML.mul ML.left23 ML.right22) :=
  have h := la_agrees_with_ml ML.left23 ML.right12 ML.right22 (by decide) (by decide)
    (by decide) rfl rfl
  ⟨by decide, by decide, by decide, rfl, rfl, h.1, h.2⟩

/-! ## Inversion in `double` arithmetic -/

/-- The entries of `singular79D` are exactly the integers `7, 21, 9, 27`. -/
theorem ML.singular79D_values :
    ML.singular79D.data.map (List.map Double.toRat) = ML.singular79.data := by
  have h7 : Double.ofInt 7 = ⟨7881299347898368, -50⟩ := rfl
  have h21 : Double.ofInt 21 = ⟨5910974510923776, -48⟩ := rfl
  have h9 : Double.ofInt 9 = ⟨5066549580791808, -49⟩ := rfl
  have h27 : Double.ofInt 27 = ⟨7599824371187712, -48⟩ := rfl
  simp only [ML.singular79D, ML.singular79, h7, h21, h9, h27, List.map, Double.toRat]
  norm_num [Int.toNat]

theorem ML.singular79_singular : ML.singular79.Singular := by
  simp [ML.Matrix.Singular, ML.singular79, toMat, Matrix.det_fin_two, gget]
  norm_num

set_option maxRecDepth 100000 in
/-- The first elimination step on `singular79D`: the ratio `9/7` rounds to
`5790342378047781 * 2^-52`, the product `ratio * 21` rounds to `27 + 2^-48`, and the entry
`matrix[1][1] = 27 - ratio * 21` becomes `-2^-48`, not zero. -/
theorem ML.singular79D_pivot :
    Double.ofInt 9 / Double.ofInt 7 = ⟨5790342378047781, -52⟩ ∧
    Double.ofInt 9 / Double.ofInt 7 * Double.ofInt 21 = ⟨7599824371187713, -48⟩ ∧
    Double.ofInt 9 - Double.ofInt 9 / Double.ofInt 7 * Double.ofInt 7 = 0 ∧
    Double.ofInt 27 - Double.ofInt 9 / Double.ofInt 7 * Double.ofInt 21 =
      ⟨-4503599627370496, -100⟩ := by
  refine ⟨rfl, rfl, rfl, rfl⟩

set_option maxRecDepth 100000 in
/-- C2, the counterexample. In `double` arithmetic `invert` returns a matrix for the
well-formed singular matrix `[[7,21],[9,27]]` (determinant `7 * 27 - 21 * 9 = 0`): the
second pivot is computed as `-2^-48`, so neither pivot test finds a zero. -/
theorem ML.invert_singular_double :
    ML.singular79D.WF ∧ ML.singular79D.row = ML.singular79D.col ∧
      ML.singular79D.data.map (List.map Double.toRat) = ML.singular79.data ∧
      ML.singular79.Singular ∧
      ML.singular79D.invert = .ok ML.singular79DInv := by
  refine ⟨by decide, rfl, ML.singular79D_values, ML.singular79_singular, ?_⟩
  rfl

set_option maxRecDepth 100000 in
/-- The singular matrix `[[1,2],[2,4]]` of the specification's scenario is rejected in
`double` arithmetic as well: its second pivot is computed as exactly zero. -/
theorem ML.invert_singular2_double : ML.singular2D.invert = .error .cannotInvert := by
  rfl

/-- In exact arithmetic `invert` rejects `[[7,21],[9,27]]`. -/
theorem ML.singular79_invert_exact : ML.singular79.invert = .error .cannotInvert := by
  simp [ML.singular79, ML.Matrix.invert, ML.Matrix.is_square, ML.eliminate, ML.normalise,
    loopM, loop, ML.elimBody, ML.normBody, ML.elimRow, gget, gset, ML.initIdent, zeros,
    ML.Matrix.newSquare]
  norm_num
